import Mathlib

set_option maxHeartbeats 1000000

/-!
Shallow embedding of `src/mypy/utils.py`: the array-to-table melter
`array2df` (lines 269-360) and its group-normalization helper
`_check_dict` (lines 363-391).

Python conventions captured here:
* dictionaries are association lists in insertion order; assignment to an
  existing key overwrites it in place, otherwise appends;
* `set` accumulation is modelled by insertion-if-absent into a list, whose
  length is the set's cardinality;
* exceptions are modelled by `Except Err`, with `Err` naming the Python
  exception class raised;
* a numpy array is its shape together with its row-major flat contents
  (integer elements, matching the integer arrays of the spec's scenarios);
* a pandas DataFrame is its list of column names and its grid of cells;
  `df.loc[idx, name] = v` writes `v` to every column whose name equals
  `name` in row `idx` (the column always exists here, since every name
  written comes from `col_names`);
* `df.infer_objects()` / `df.convert_objects(convert_numeric=True)`
  rewrite column dtypes only, which this embedding does not model, so a
  supported call is the identity on the cell grid and an unsupported one
  raises `AttributeError`; the two Booleans passed to `array2df` say which
  of the two calls this pandas version supports.
-/

namespace Mypy

/-- Python exception kinds raised by the modelled code. -/
inductive Err
  | indexError
  | keyError
  | assertionError
  | typeError
  | attributeError
  deriving DecidableEq, Repr

/-- Python dictionary keys occurring in group specifications: strings,
integers, or tuples of integers. -/
inductive Key
  | kstr (s : String)
  | kint (n : Int)
  | ktup (l : List Int)
  deriving DecidableEq, Repr

/-- Python values occurring as dictionary values and as DataFrame cells:
strings (labels), integers (array elements), lists of integer positions,
and NaN (the fill value of a freshly allocated DataFrame). -/
inductive Val
  | vstr (s : String)
  | vint (n : Int)
  | vints (l : List Int)
  | vnan
  deriving DecidableEq, Repr

/-- One dimension's raw group specification as passed to `_check_dict`:
either a Python dict or a non-dict sequence of labels indexed by
position. -/
inductive GroupArg
  | gdict (entries : List (Key × Val))
  | gseq (l : List Val)
  deriving DecidableEq, Repr

/-- The `groups` argument of `array2df`: a list of per-dimension raw
specifications, or a dict keyed by dimension index. -/
inductive GroupsArg
  | gsList (l : List GroupArg)
  | gsDict (l : List (Int × GroupArg))
  deriving DecidableEq, Repr

/-- Normalized groups as held by `array2df` after lines 331-340: a list
(when `groups` was a list) or a dict keyed by dimension index (when
`groups` was a dict or was defaulted). -/
inductive NGroups
  | ngList (l : List GroupArg)
  | ngDict (l : List (Int × GroupArg))
  deriving DecidableEq, Repr

/-- The `dim_names` argument: a list of names or a dict from dimension
index to name. -/
inductive DimNames
  | dnList (l : List String)
  | dnDict (l : List (Int × String))
  deriving DecidableEq, Repr

/-- A dense numpy array: its shape and its elements flattened in
row-major (C) order, so that the element at multi-index `a` is
`data[flatIndex shape a]`. -/
structure NDArray where
  shape : List Nat
  data : List Int
  wf : data.length = shape.prod

/-- A pandas DataFrame: column names (duplicates possible) and the grid
of cells, one inner list per row. -/
structure DataFrame where
  colNames : List String
  rows : List (List Val)
  deriving DecidableEq, Repr

/-- Dictionary lookup: first entry with the given key (Python dicts hold
each key at most once). -/
def lookupKV (d : List (Key × Val)) (k : Key) : Option Val :=
  (d.find? (fun e => e.1 = k)).map (fun e => e.2)

/-- Python dict assignment `d[k] = v`: overwrite the entry in place when
the key is present, else append a new entry. -/
def dictInsert (d : List (Key × Val)) (k : Key) (v : Val) : List (Key × Val) :=
  if d.any (fun e => e.1 = k) then
    d.map (fun e => if e.1 = k then (k, v) else e)
  else d ++ [(k, v)]

/-- Python `set.add`: record the element if it is not already present.
The list length is the cardinality of the accumulated set. -/
def listInsert (l : List Key) (x : Key) : List Key :=
  if x ∈ l then l else l ++ [x]

/-- Iterating a Python value (`for val in dct[k]`, line 373): a list of
ints yields its ints, a string yields its characters, an int or NaN is
not iterable and raises `TypeError`. -/
def iterVal : Val → Except Err (List Key)
  | .vints l => .ok (l.map Key.kint)
  | .vstr s => .ok (s.data.map (fun c => Key.kstr (String.mk [c])))
  | .vint _ => .error .typeError
  | .vnan => .error .typeError

/-- Iterating a Python dict key (`for i in k`, line 381): a tuple yields
its elements, a string its characters, an int raises `TypeError`. -/
def keyIter : Key → Except Err (List Key)
  | .ktup l => .ok (l.map Key.kint)
  | .kstr s => .ok (s.data.map (fun c => Key.kstr (String.mk [c])))
  | .kint _ => .error .typeError

/-- A dict key used as a dict value (`new_dct[val] = k`, line 374). -/
def keyAsVal : Key → Val
  | .kstr s => .vstr s
  | .kint n => .vint n
  | .ktup l => .vints l

/-- Line 365: `all(isinstance(k, str) for k in dct.keys())`. -/
def strKeys (d : List (Key × Val)) : Bool :=
  d.all (fun e => match e.1 with | .kstr _ => true | _ => false)

/-- Line 367: `all(isinstance(k, tuple) for k in dct.keys())`. -/
def tupleKeys (d : List (Key × Val)) : Bool :=
  d.all (fun e => match e.1 with | .ktup _ => true | _ => false)

/-- What one dict entry contributes in the string-keyed branch (lines
372-375): the iterated positions come from the value, and the inserted
mapping value is the entry's (string) key. -/
def extStr (e : Key × Val) : Except Err (List Key × Val) := do
  let ks ← iterVal e.2
  pure (ks, keyAsVal e.1)

/-- What one dict entry contributes in the tuple-keyed branch (lines
380-383): the iterated positions come from the (tuple) key, and the
inserted mapping value is the entry's value. -/
def extTup (e : Key × Val) : Except Err (List Key × Val) := do
  let ks ← keyIter e.1
  pure (ks, e.2)

/-- The common nested loop of both `_check_dict` dict branches: for each
entry, extract the positions to iterate and the value to record, then
insert `new_dct[pos] = value` and `pos_set.add(pos)` for each position.
The accumulator is the pair `(new_dct, pos_set)`. -/
def invertEntries (ext : Key × Val → Except Err (List Key × Val)) :
    List (Key × Val) → List (Key × Val) × List Key →
    Except Err (List (Key × Val) × List Key)
  | [], acc => .ok acc
  | e :: rest, acc => do
    let kv ← ext e
    let acc2 := kv.1.foldl (fun a x => (dictInsert a.1 x kv.2, listInsert a.2 x)) acc
    invertEntries ext rest acc2

/-- Lines 363-391: `_check_dict(dct, dim_len)`. A dict with all-string
keys is inverted (value positions become keys); a dict with all-tuple
keys is expanded (tuple elements become keys); in both cases an
`AssertionError` is raised unless the number of distinct positions seen
equals `dim_len`. Any other dict is returned unchanged. A non-dict
sequence must have length `dim_len` and is returned unchanged. -/
def _check_dict (dct : GroupArg) (dim_len : Nat) : Except Err GroupArg :=
  match dct with
  | .gdict d =>
    if strKeys d then do
      let r ← invertEntries extStr d ([], [])
      if r.2.length = dim_len then pure (.gdict r.1)
      else .error .assertionError
    else if tupleKeys d then do
      let r ← invertEntries extTup d ([], [])
      if r.2.length = dim_len then pure (.gdict r.1)
      else .error .assertionError
    else pure (.gdict d)
  | .gseq l =>
    if l.length = dim_len then pure (.gseq l) else .error .assertionError

/-- Left-to-right effectful map over a list, stopping at the first
error: the translation of a Python list/dict comprehension or loop that
may raise. -/
def exceptMap {α β : Type} (f : α → Except Err β) : List α → Except Err (List β)
  | [] => .ok []
  | x :: xs => do
    let y ← f x
    let ys ← exceptMap f xs
    pure (y :: ys)

/-- Left-to-right effectful fold, stopping at the first error. -/
def exceptFoldl {α β : Type} (step : β → α → Except Err β) (b : β) :
    List α → Except Err β
  | [] => .ok b
  | x :: xs => do
    let b2 ← step b x
    exceptFoldl step b2 xs

/-- Bounds check and access for Python tuple indexing, after negative
indices have been shifted. -/
def pyIndexAux (l : List Nat) (j : Int) : Except Err Nat :=
  if 0 ≤ j ∧ j < (l.length : Int) then .ok (l.getD j.toNat 0)
  else .error .indexError

/-- Python `tuple.__getitem__` on a shape tuple: negative indices count
from the end, out-of-range indices raise `IndexError`. -/
def pyIndexNat (l : List Nat) (i : Int) : Except Err Nat :=
  pyIndexAux l (if i < 0 then i + l.length else i)

/-- Line 327: `list('ijklmnop')`. -/
def letters : List String := ["i", "j", "k", "l", "m", "n", "o", "p"]

/-- Lines 329-330: the default `dim_names` dict,
`{dim: 'dim_' + l for dim, l in enumerate(dim_letters)}`. -/
def defaultDimNames (dim_letters : List String) : DimNames :=
  .dnDict (dim_letters.enum.map (fun e => ((e.1 : Int), "dim_" ++ e.2)))

/-- Lines 332-333, inner comprehension for one dimension:
`{i: dim_letters[dim] + str(i) for i in range(shape[dim])}`. When the
range is empty the body is never evaluated, so `dim_letters[dim]` is
only looked up (raising `IndexError` when out of range) for a nonempty
dimension. -/
def defaultGroupsDim (dim_letters : List String) (dim : Nat) (len : Nat) :
    Except Err GroupArg :=
  if len = 0 then .ok (.gdict [])
  else match dim_letters.get? dim with
    | some l => .ok (.gdict ((List.range len).map
        (fun i => (Key.kint i, Val.vstr (l ++ toString i)))))
    | none => .error .indexError

/-- Lines 332-333, outer comprehension: the default groups dict over
`range(n_dim)`. -/
def defaultGroups (dim_letters : List String) (shape : List Nat) :
    Except Err (List (Int × GroupArg)) :=
  exceptMap (fun dim => do
      let g ← defaultGroupsDim dim_letters dim (shape.getD dim 0)
      pure ((dim : Int), g))
    (List.range shape.length)

/-- Lines 331-340: build the normalized groups. `None` produces the
default dict; a dict argument is normalized per present key (with
`shape[dim]` looked up by Python tuple indexing); a list argument is
normalized positionally over `range(len(groups))` (so `shape[dim]`
raises `IndexError` when the list is longer than the array has
dimensions). -/
def normalizeGroups (shape : List Nat) (dim_letters : List String) :
    Option GroupsArg → Except Err NGroups
  | none => do
    let es ← defaultGroups dim_letters shape
    pure (.ngDict es)
  | some (.gsDict entries) => do
    let es ← exceptMap (fun e => do
        let len ← pyIndexNat shape e.1
        let g ← _check_dict e.2 len
        pure (e.1, g)) entries
    pure (.ngDict es)
  | some (.gsList l) => do
    let gs ← exceptMap (fun dim => do
        let len ← pyIndexNat shape (Int.ofNat dim)
        _check_dict (l.getD dim (.gseq [])) len)
      (List.range l.length)
    pure (.ngList gs)

/-- `dim_names[i]` (lines 343 and 351): list indexing raises
`IndexError` out of range, dict lookup raises `KeyError` when the key is
absent. -/
def dnLookup : DimNames → Nat → Except Err String
  | .dnList l, i =>
    match l.get? i with
    | some s => .ok s
    | none => .error .indexError
  | .dnDict d, i =>
    match d.find? (fun e => e.1 = (i : Int)) with
    | some e => .ok e.2
    | none => .error .keyError

/-- `groups[dim_idx]` (line 351) on the normalized groups. -/
def ngLookup : NGroups → Nat → Except Err GroupArg
  | .ngList l, i =>
    match l.get? i with
    | some a => .ok a
    | none => .error .indexError
  | .ngDict d, i =>
    match d.find? (fun e => e.1 = (i : Int)) with
    | some e => .ok e.2
    | none => .error .keyError

/-- `groups[dim_idx][dim_adr]` (line 351), inner lookup: dict lookup by
integer position, or sequence indexing. -/
def groupLookup : GroupArg → Nat → Except Err Val
  | .gdict d, i =>
    match lookupKV d (.kint i) with
    | some v => .ok v
    | none => .error .keyError
  | .gseq l, i =>
    match l.get? i with
    | some v => .ok v
    | none => .error .indexError

/-- Line 347: `product(*map(range, shape))` — all multi-indices of the
index space in row-major order (dimension 0 slowest, last dimension
fastest). -/
def indices : List Nat → List (List Nat)
  | [] => [[]]
  | d :: s => (List.range d).flatMap (fun i => (indices s).map (fun a => i :: a))

/-- Row-major flattening of a multi-index against a shape. -/
def flatIndex : List Nat → List Nat → Nat
  | _ :: s, i :: a => i * s.prod + flatIndex s a
  | _, _ => 0

/-- The `k`-th multi-index of the row-major enumeration, as mixed-radix
digits of `k`. -/
def unflatten : List Nat → Nat → List Nat
  | [], _ => []
  | _ :: s, k => (k / s.prod) :: unflatten s (k % s.prod)

/-- Numpy element access `arr[adr]` by multi-index tuple (line 348):
valid iff the address has one in-range coordinate per dimension. -/
def ndget (arr : NDArray) (adr : List Nat) : Except Err Val :=
  if adr.length = arr.shape.length ∧ (List.zip adr arr.shape).all (fun p => p.1 < p.2) then
    match arr.data.get? (flatIndex arr.shape adr) with
    | some n => .ok (.vint n)
    | none => .error .indexError
  else .error .indexError

/-- Pandas `df.loc[idx, name] = v` restricted to one row: write `v` into
every column whose name equals `name`. -/
def setByName (colNames : List String) (row : List Val) (name : String)
    (v : Val) : List Val :=
  List.zipWith (fun cn cell => if cn = name then v else cell) colNames row

/-- Lines 347-351, loop body for one multi-index `adr`: start from a row
of NaN cells, write the array element into the `value_name` column, then
for each dimension write the group label (looked up first, as the
assignment's right-hand side) into the `dim_names[dim_idx]` column. -/
def buildRow (arr : NDArray) (dn : DimNames) (groupsN : NGroups)
    (colNames : List String) (value_name : String) (adr : List Nat) :
    Except Err (List Val) := do
  let v ← ndget arr adr
  let row0 := setByName colNames (List.replicate colNames.length Val.vnan)
    value_name v
  exceptFoldl (fun row e => do
      let grp ← ngLookup groupsN e.1
      let lbl ← groupLookup grp e.2
      let name ← dnLookup dn e.1
      pure (setByName colNames row name lbl))
    row0 adr.enum

/-- Lines 328-330: `dim_names` stays as passed, or defaults to the
`dim_`-prefixed letter dict when `None`. -/
def resolveDimNames (dim_letters : List String) : Option DimNames → DimNames
  | none => defaultDimNames dim_letters
  | some d => d

/-- Lines 323-351 of `array2df`: defaults, group normalization, column
names, and row population — everything before the dtype-inference
step. -/
def populate (arr : NDArray) (dim_names : Option DimNames)
    (groups : Option GroupsArg) (value_name : String) :
    Except Err DataFrame := do
  let n_dim := arr.shape.length
  let shape := arr.shape
  let dim_letters := letters.take n_dim
  let dn := resolveDimNames dim_letters dim_names
  let groupsN ← normalizeGroups shape dim_letters groups
  let dimCols ← exceptMap (dnLookup dn) (List.range n_dim)
  let col_names := value_name :: dimCols
  let rows ← exceptMap (buildRow arr dn groupsN col_names value_name)
    (indices shape)
  pure ⟨col_names, rows⟩

/-- Lines 353-359: `try: df.infer_objects() except: df.convert_objects(...)`.
Both calls only rewrite column dtypes (identity on the cell grid); an
unsupported call raises. The failure of `infer_objects` is caught by the
bare `except`, but a failure of the fallback `convert_objects` call
propagates. -/
def dtypeStep (hasInfer hasConvert : Bool) (df : DataFrame) :
    Except Err DataFrame :=
  if hasInfer then .ok df
  else if hasConvert then .ok df
  else .error .attributeError

/-- Lines 269-360: `array2df(arr, dim_names, groups, value_name)`,
parametrized by which dtype-inference calls the pandas version
supports. -/
def array2df (arr : NDArray) (dim_names : Option DimNames)
    (groups : Option GroupsArg) (value_name : String)
    (hasInfer hasConvert : Bool) : Except Err DataFrame := do
  let df ← populate arr dim_names groups value_name
  dtypeStep hasInfer hasConvert df

/-! Concrete fixtures used by the claim theorems below. -/

/-- A generic 2x2 array `[[a, b], [c, d]]`. -/
def exArr22 (a b c d : Int) : NDArray := ⟨[2, 2], [a, b, c, d], rfl⟩

/-- The docstring's second example array, `arange(12).reshape(4, 3)`. -/
def exArr43 : NDArray := ⟨[4, 3], [0, 1, 2, 3, 4, 5, 6, 7, 8, 9, 10, 11], rfl⟩

/-- The docstring's second example groups:
`[{'A': [0, 2], 'B': [1, 3]}, {(0, 2): 'abc', (1,): 'd'}]`. -/
def exGroups43 : GroupsArg := .gsList
  [.gdict [(.kstr "A", .vints [0, 2]), (.kstr "B", .vints [1, 3])],
   .gdict [(.ktup [0, 2], .vstr "abc"), (.ktup [1], .vstr "d")]]

/-- A one-element one-dimensional array holding `7`. -/
def exArr1 : NDArray := ⟨[1], [7], rfl⟩

/-- A two-element one-dimensional array holding `5, 6`. -/
def exArr2 : NDArray := ⟨[2], [5, 6], rfl⟩

/-- An already-canonical integer-position-keyed dict `{0: 'a', 1: 'b', 2: 'c'}`
describing positions `{0, 1, 2}`. -/
def exDict012 : List (Key × Val) :=
  [(.kint 0, .vstr "a"), (.kint 1, .vstr "b"), (.kint 2, .vstr "c")]

/-- A nine-dimensional array of shape `(1,...,1)`. -/
def exArr9 : NDArray := ⟨[1, 1, 1, 1, 1, 1, 1, 1, 1], [42], rfl⟩

/-- A nine-dimensional empty array of shape `(1,...,1,0)`: every dimension
at index 8 or above has zero length. -/
def exArr9z : NDArray := ⟨[1, 1, 1, 1, 1, 1, 1, 1, 0], [], rfl⟩

/-- The table `array2df` produces for `exArr1` under default arguments. -/
def exDf1 : DataFrame := ⟨["value", "dim_i"], [[.vint 7, .vstr "i0"]]⟩

/-- The table `array2df` produces for `exArr22 10 11 12 13` under default
arguments. -/
def exDf22 : DataFrame :=
  ⟨["value", "dim_i", "dim_j"],
    [[.vint 10, .vstr "i0", .vstr "j0"],
     [.vint 11, .vstr "i0", .vstr "j1"],
     [.vint 12, .vstr "i1", .vstr "j0"],
     [.vint 13, .vstr "i1", .vstr "j1"]]⟩

/-- A three-element one-dimensional array holding `1, 2, 3`. -/
def exArr3 : NDArray := ⟨[3], [1, 2, 3], rfl⟩

/-- A label-keyed spec `{'A': [0, 2]}` describing two distinct positions. -/
def exDictC6 : List (Key × Val) := [(.kstr "A", .vints [0, 2])]

/-- Predicate of the spec's label-keyed encoding: every dict value is an
iterable of integer positions. -/
def allVints (d : List (Key × Val)) : Bool :=
  d.all (fun e => match e.2 with | .vints _ => true | _ => false)

/-- The positions a label-keyed specification describes: the concatenation
of its value lists, as dict keys. -/
def strPositions (d : List (Key × Val)) : List Key :=
  d.flatMap (fun e => match e.2 with | .vints l => l.map Key.kint | _ => [])

/-- The positions a tuple-keyed specification describes: the concatenation
of its tuple keys, as dict keys. -/
def tupPositions (d : List (Key × Val)) : List Key :=
  d.flatMap (fun e => match e.1 with | .ktup l => l.map Key.kint | _ => [])

/-- The labels a logical position-to-label mapping `f` on `{0..n-1}` uses,
in order of first appearance. -/
def labelsOf (f : Nat → String) (n : Nat) : List String :=
  ((List.range n).map f).dedup

/-- The positions mapped to label `s` by `f` on `{0..n-1}`, ascending. -/
def posOf (f : Nat → String) (n : Nat) (s : String) : List Nat :=
  (List.range n).filter (fun p => f p = s)

/-- The canonical (integer-position-keyed) encoding of `f` on `{0..n-1}`. -/
def canonEnc (f : Nat → String) (n : Nat) : GroupArg :=
  .gdict ((List.range n).map (fun p => (Key.kint (Int.ofNat p), Val.vstr (f p))))

/-- The label-keyed encoding of `f` on `{0..n-1}`: each label maps to the
collection of its positions. -/
def labelEnc (f : Nat → String) (n : Nat) : GroupArg :=
  .gdict ((labelsOf f n).map (fun s =>
    (Key.kstr s, Val.vints ((posOf f n s).map Int.ofNat))))

/-- The tuple-keyed encoding of `f` on `{0..n-1}`: each tuple of positions
maps to its label. -/
def tupleEnc (f : Nat → String) (n : Nat) : GroupArg :=
  .gdict ((labelsOf f n).map (fun s =>
    (Key.ktup ((posOf f n s).map Int.ofNat), Val.vstr s)))

/-- The extensional content of the canonical mapping of `f` on `{0..n-1}`:
what a canonicalized group dict for `f` answers to every possible key. -/
def canonFun (f : Nat → String) (n : Nat) (k : Key) : Option Val :=
  match k with
  | .kint q => if 0 ≤ q ∧ q < (n : Int) then some (.vstr (f q.toNat)) else none
  | _ => none

/-- The keys `kint 0 .. kint (n-1)` a canonicalized group dict for a
dimension of length `n` holds. -/
def kintRangeL (n : Nat) : List Key :=
  (List.range n).map (fun p => Key.kint (Int.ofNat p))

/-- The label a canonicalized dict for `f` stores under an integer key
(arbitrary on non-integer keys, which never occur). -/
def gfOf (f : Nat → String) : Key → Val
  | .kint q => .vstr (f q.toNat)
  | _ => .vnan

/-- Per-dimension encoding of a list of logical mappings into a
list-shaped `groups` argument. -/
def encodeAll (enc : (Nat → String) → Nat → GroupArg)
    (fs : List (Nat → String)) (shape : List Nat) : GroupsArg :=
  .gsList (List.zipWith enc fs shape)

/-! Basic lemmas about `Except` binds and the effectful map and fold. -/

theorem ok_bind {α β : Type} (a : α) (g : α → Except Err β) :
    (Except.ok a : Except Err α).bind g = g a := rfl

theorem error_bind {α β : Type} (e : Err) (g : α → Except Err β) :
    (Except.error e : Except Err α).bind g = .error e := rfl

theorem exceptMap_nil {α β : Type} (f : α → Except Err β) :
    exceptMap f [] = .ok [] := rfl

theorem exceptMap_cons {α β : Type} (f : α → Except Err β) (x : α) (xs : List α) :
    exceptMap f (x :: xs) =
      (f x).bind (fun y => (exceptMap f xs).bind (fun ys => .ok (y :: ys))) := rfl

theorem exceptMap_ok_length {α β : Type} {f : α → Except Err β} :
    ∀ {xs : List α} {ys : List β}, exceptMap f xs = .ok ys → ys.length = xs.length := by
  intro xs
  induction xs with
  | nil =>
    intro ys h
    rw [exceptMap_nil] at h
    cases h
    rfl
  | cons x xs ih =>
    intro ys h
    rw [exceptMap_cons] at h
    cases hf : f x with
    | error e => rw [hf, error_bind] at h; cases h
    | ok y =>
      rw [hf, ok_bind] at h
      cases hm : exceptMap f xs with
      | error e => rw [hm, error_bind] at h; cases h
      | ok zs =>
        rw [hm, ok_bind] at h
        cases h
        simp [ih hm]

theorem exceptMap_ok_get {α β : Type} {f : α → Except Err β} :
    ∀ {xs : List α} {ys : List β}, exceptMap f xs = .ok ys →
      ∀ i x y, xs.get? i = some x → ys.get? i = some y → f x = .ok y := by
  intro xs
  induction xs with
  | nil =>
    intro ys h i x y hx _
    simp at hx
  | cons a xs ih =>
    intro ys h i x y hx hy
    rw [exceptMap_cons] at h
    cases hf : f a with
    | error e => rw [hf, error_bind] at h; cases h
    | ok b =>
      rw [hf, ok_bind] at h
      cases hm : exceptMap f xs with
      | error e => rw [hm, error_bind] at h; cases h
      | ok zs =>
        rw [hm, ok_bind] at h
        cases h
        cases i with
        | zero =>
          rw [List.get?_cons_zero] at hx hy
          injection hx with h1
          injection hy with h2
          subst h1
          subst h2
          exact hf
        | succ j =>
          rw [List.get?_cons_succ] at hx hy
          exact ih hm j x y hx hy

theorem exceptMap_ok_mem {α β : Type} {f : α → Except Err β} :
    ∀ {xs : List α} {ys : List β}, exceptMap f xs = .ok ys →
      ∀ x ∈ xs, ∃ y, f x = .ok y := by
  intro xs
  induction xs with
  | nil => intro ys _ x hx; cases hx
  | cons a xs ih =>
    intro ys h x hx
    rw [exceptMap_cons] at h
    cases hf : f a with
    | error e => rw [hf, error_bind] at h; cases h
    | ok b =>
      rw [hf, ok_bind] at h
      cases hm : exceptMap f xs with
      | error e => rw [hm, error_bind] at h; cases h
      | ok zs =>
        cases hx with
        | head => exact ⟨b, hf⟩
        | tail _ hmem => exact ih hm x hmem

theorem exceptMap_congr {α β : Type} {f g : α → Except Err β} :
    ∀ {xs : List α}, (∀ x ∈ xs, f x = g x) → exceptMap f xs = exceptMap g xs := by
  intro xs
  induction xs with
  | nil => intro _; rfl
  | cons a xs ih =>
    intro h
    rw [exceptMap_cons, exceptMap_cons, h a (List.mem_cons_self a xs),
      ih (fun x hx => h x (List.mem_cons_of_mem a hx))]

theorem exceptMap_ok_of_all {α β : Type} {f : α → Except Err β} :
    ∀ {xs : List α}, (∀ x ∈ xs, ∃ y, f x = .ok y) → ∃ ys, exceptMap f xs = .ok ys := by
  intro xs
  induction xs with
  | nil => intro _; exact ⟨[], rfl⟩
  | cons a xs ih =>
    intro h
    obtain ⟨y, hy⟩ := h a (List.mem_cons_self a xs)
    obtain ⟨ys, hys⟩ := ih (fun x hx => h x (List.mem_cons_of_mem a hx))
    exact ⟨y :: ys, by rw [exceptMap_cons, hy, ok_bind, hys, ok_bind]⟩

theorem exceptMap_error_uniform {α β : Type} {f : α → Except Err β} {e : Err} :
    ∀ {xs : List α}, (∀ x ∈ xs, (∃ y, f x = .ok y) ∨ f x = .error e) →
      (∃ x ∈ xs, f x = .error e) → exceptMap f xs = .error e := by
  intro xs
  induction xs with
  | nil => intro _ hex; obtain ⟨x, hx, _⟩ := hex; cases hx
  | cons a xs ih =>
    intro hall hex
    rw [exceptMap_cons]
    cases hfa : f a with
    | error e2 =>
      rcases hall a (List.mem_cons_self a xs) with ⟨y, hy⟩ | herr
      · rw [hfa] at hy; cases hy
      · rw [hfa] at herr
        cases herr
        rw [error_bind]
    | ok b =>
      rw [ok_bind]
      have htail : ∃ x ∈ xs, f x = .error e := by
        obtain ⟨x, hx, hfx⟩ := hex
        cases hx with
        | head => rw [hfa] at hfx; cases hfx
        | tail _ hmem => exact ⟨x, hmem, hfx⟩
      rw [ih (fun x hx => hall x (List.mem_cons_of_mem a hx)) htail, error_bind]

theorem exceptFoldl_nil {α β : Type} (step : β → α → Except Err β) (b : β) :
    exceptFoldl step b [] = .ok b := rfl

theorem exceptFoldl_cons {α β : Type} (step : β → α → Except Err β) (b : β)
    (x : α) (xs : List α) :
    exceptFoldl step b (x :: xs) =
      (step b x).bind (fun b2 => exceptFoldl step b2 xs) := rfl

theorem exceptFoldl_preserve {α β : Type} {step : β → α → Except Err β}
    (P : β → Prop) :
    ∀ {xs : List α} {b b' : β}, P b →
      (∀ c x c', x ∈ xs → P c → step c x = .ok c' → P c') →
      exceptFoldl step b xs = .ok b' → P b' := by
  intro xs
  induction xs with
  | nil =>
    intro b b' hb _ h
    rw [exceptFoldl_nil] at h
    cases h
    exact hb
  | cons a xs ih =>
    intro b b' hb hstep h
    rw [exceptFoldl_cons] at h
    cases hs : step b a with
    | error e => rw [hs, error_bind] at h; cases h
    | ok b2 =>
      rw [hs, ok_bind] at h
      exact ih (hstep b a b2 (List.mem_cons_self a xs) hb hs)
        (fun c x c' hx => hstep c x c' (List.mem_cons_of_mem a hx)) h

theorem exceptFoldl_congr {α β : Type} {step1 step2 : β → α → Except Err β} :
    ∀ {xs : List α} {b : β}, (∀ c x, x ∈ xs → step1 c x = step2 c x) →
      exceptFoldl step1 b xs = exceptFoldl step2 b xs := by
  intro xs
  induction xs with
  | nil => intro b _; rfl
  | cons a xs ih =>
    intro b h
    rw [exceptFoldl_cons, exceptFoldl_cons, h b a (List.mem_cons_self a xs)]
    cases step2 b a with
    | error e => rw [error_bind, error_bind]
    | ok b2 => rw [ok_bind, ok_bind, ih (fun c x hx => h c x (List.mem_cons_of_mem a hx))]

/-! Lemmas about the row-major enumeration of the index space. -/

theorem range_mul_flatMap (P : Nat) :
    ∀ d : Nat, List.range (d * P) =
      (List.range d).flatMap (fun i => (List.range P).map (fun j => i * P + j)) := by
  intro d
  induction d with
  | zero => simp
  | succ d ih =>
    rw [Nat.succ_mul, List.range_add, ih, List.range_succ]
    simp

theorem length_unflatten (k : Nat) :
    ∀ s : List Nat, (unflatten s k).length = s.length := by
  intro s
  induction s generalizing k with
  | nil => rfl
  | cons d s ih => simp [unflatten, ih]

theorem indices_eq :
    ∀ s : List Nat, indices s = (List.range s.prod).map (unflatten s) := by
  intro s
  induction s with
  | nil => rfl
  | cons d s ih =>
    show (List.range d).flatMap (fun i => (indices s).map (fun a => i :: a)) = _
    rw [ih, List.prod_cons, range_mul_flatMap s.prod d]
    rw [List.map_flatMap]
    apply List.flatMap_congr
    intro i _
    rw [List.map_map, List.map_map]
    apply List.map_congr_left
    intro j hj
    have hjP : j < s.prod := List.mem_range.mp hj
    have hP : 0 < s.prod := Nat.lt_of_le_of_lt (Nat.zero_le j) hjP
    simp only [Function.comp]
    show i :: unflatten s j = unflatten (d :: s) (i * s.prod + j)
    have hdiv : (i * s.prod + j) / s.prod = i := by
      rw [Nat.mul_comm, Nat.mul_add_div hP, Nat.div_eq_of_lt hjP, Nat.add_zero]
    have hmod : (i * s.prod + j) % s.prod = j := by
      rw [Nat.mul_comm, Nat.mul_add_mod, Nat.mod_eq_of_lt hjP]
    simp [unflatten, hdiv, hmod]

theorem length_indices (s : List Nat) : (indices s).length = s.prod := by
  rw [indices_eq]
  simp

theorem get_indices {s : List Nat} {k : Nat} (hk : k < s.prod) :
    (indices s).get? k = some (unflatten s k) := by
  rw [indices_eq]
  rw [List.get?_eq_getElem?, List.getElem?_map, List.getElem?_range hk]
  rfl

theorem flatIndex_unflatten :
    ∀ (s : List Nat) (k : Nat), k < s.prod → flatIndex s (unflatten s k) = k := by
  intro s
  induction s with
  | nil =>
    intro k hk
    simp at hk
    simp [hk, unflatten, flatIndex]
  | cons d s ih =>
    intro k hk
    rw [List.prod_cons] at hk
    have hP : 0 < s.prod := by
      rcases Nat.eq_zero_or_pos s.prod with h0 | h
      · rw [h0, Nat.mul_zero] at hk; cases hk
      · exact h
    show (k / s.prod) * s.prod + flatIndex s (unflatten s (k % s.prod)) = k
    rw [ih (k % s.prod) (Nat.mod_lt k hP)]
    rw [Nat.mul_comm, Nat.div_add_mod]

theorem unflatten_bounds :
    ∀ (s : List Nat) (k : Nat), k < s.prod →
      (List.zip (unflatten s k) s).all (fun p => p.1 < p.2) = true := by
  intro s
  induction s with
  | nil => intro k _; rfl
  | cons d s ih =>
    intro k hk
    rw [List.prod_cons] at hk
    have hP : 0 < s.prod := by
      rcases Nat.eq_zero_or_pos s.prod with h0 | h
      · rw [h0, Nat.mul_zero] at hk; cases hk
      · exact h
    show ((k / s.prod, d) :: List.zip (unflatten s (k % s.prod)) s).all
      (fun p => p.1 < p.2) = true
    simp only [List.all_cons, Bool.and_eq_true, decide_eq_true_eq]
    exact ⟨Nat.div_lt_of_lt_mul (Nat.mul_comm d s.prod ▸ hk),
      ih (k % s.prod) (Nat.mod_lt k hP)⟩

theorem ndget_unflatten (arr : NDArray) (k : Nat) (hk : k < arr.shape.prod) :
    ndget arr (unflatten arr.shape k) = .ok (.vint (arr.data.getD k 0)) := by
  have hlen : (unflatten arr.shape k).length = arr.shape.length :=
    length_unflatten k arr.shape
  have hkd : k < arr.data.length := by rw [arr.wf]; exact hk
  rw [ndget, if_pos ⟨hlen, unflatten_bounds arr.shape k hk⟩,
    flatIndex_unflatten arr.shape k hk]
  rw [List.get?_eq_getElem?, List.getElem?_eq_getElem hkd]
  rw [List.getD_eq_getElem arr.data 0 hkd]

/-! Structural lemmas about `populate` and `array2df`. -/

theorem seq_ok {α β : Type} (a : α) (g : α → Except Err β) :
    (Except.ok a >>= g) = g a := rfl

theorem seq_error {α β : Type} (e : Err) (g : α → Except Err β) :
    ((Except.error e : Except Err α) >>= g) = .error e := rfl

theorem populate_eq (arr : NDArray) (dn : Option DimNames)
    (g : Option GroupsArg) (vn : String) :
    populate arr dn g vn =
      normalizeGroups arr.shape (letters.take arr.shape.length) g >>=
        fun groupsN =>
      exceptMap (dnLookup (resolveDimNames (letters.take arr.shape.length) dn))
          (List.range arr.shape.length) >>= fun dimCols =>
      exceptMap (buildRow arr (resolveDimNames (letters.take arr.shape.length) dn)
          groupsN (vn :: dimCols) vn) (indices arr.shape) >>= fun rows =>
      .ok ⟨vn :: dimCols, rows⟩ := rfl

theorem array2df_eq (arr : NDArray) (dn : Option DimNames)
    (g : Option GroupsArg) (vn : String) (hI hC : Bool) :
    array2df arr dn g vn hI hC =
      populate arr dn g vn >>= dtypeStep hI hC := rfl

theorem dtypeStep_ok {hI hC : Bool} {df df' : DataFrame}
    (h : dtypeStep hI hC df = .ok df') : df' = df := by
  unfold dtypeStep at h
  cases hI with
  | true => cases h; rfl
  | false =>
    simp only [Bool.false_eq_true, if_false] at h
    cases hC with
    | true => cases h; rfl
    | false => simp at h

theorem array2df_error_of_populate {arr : NDArray} {dn : Option DimNames}
    {g : Option GroupsArg} {vn : String} {e : Err} (hI hC : Bool)
    (h : populate arr dn g vn = .error e) :
    array2df arr dn g vn hI hC = .error e := by
  rw [array2df_eq, h, seq_error]

theorem array2df_ok_populate {arr : NDArray} {dn : Option DimNames}
    {g : Option GroupsArg} {vn : String} {hI hC : Bool} {df : DataFrame}
    (h : array2df arr dn g vn hI hC = .ok df) :
    populate arr dn g vn = .ok df := by
  rw [array2df_eq] at h
  cases hp : populate arr dn g vn with
  | error e => rw [hp, seq_error] at h; cases h
  | ok df2 =>
    rw [hp, seq_ok] at h
    rw [dtypeStep_ok h]

theorem populate_error_norm {arr : NDArray} {dn : Option DimNames}
    {g : Option GroupsArg} {vn : String} {e : Err}
    (h : normalizeGroups arr.shape (letters.take arr.shape.length) g = .error e) :
    populate arr dn g vn = .error e := by
  rw [populate_eq, h, seq_error]

theorem populate_error_cols {arr : NDArray} {dn : Option DimNames}
    {g : Option GroupsArg} {vn : String} {gN : NGroups} {e : Err}
    (hn : normalizeGroups arr.shape (letters.take arr.shape.length) g = .ok gN)
    (h : exceptMap (dnLookup (resolveDimNames (letters.take arr.shape.length) dn))
      (List.range arr.shape.length) = .error e) :
    populate arr dn g vn = .error e := by
  rw [populate_eq, hn, seq_ok, h, seq_error]

/-- An `Except`-valued case split for the default-groups body of one
dimension: it either succeeds or raises `IndexError`. -/
theorem defaultGroupsDim_cases (dl : List String) (dim len : Nat) :
    (∃ g, defaultGroupsDim dl dim len = .ok g) ∨
      defaultGroupsDim dl dim len = .error .indexError := by
  unfold defaultGroupsDim
  by_cases h : len = 0
  · exact Or.inl ⟨.gdict [], by rw [if_pos h]⟩
  · rw [if_neg h]
    cases h2 : dl.get? dim with
    | some l => exact Or.inl ⟨_, rfl⟩
    | none => exact Or.inr rfl

/-- Lookup in a dict-shaped `dim_names` either succeeds or raises
`KeyError`. -/
theorem dnLookup_dnDict_cases (D : List (Int × String)) (i : Nat) :
    (∃ s, dnLookup (.dnDict D) i = .ok s) ∨
      dnLookup (.dnDict D) i = .error .keyError := by
  cases h2 : D.find? (fun e => e.1 = (i : Int)) with
  | some e => exact Or.inl ⟨e.2, by simp [dnLookup, h2]⟩
  | none => exact Or.inr (by simp [dnLookup, h2])

theorem defaultGroups_eq (dl : List String) (shape : List Nat) :
    defaultGroups dl shape = exceptMap (fun dim =>
      defaultGroupsDim dl dim (shape.getD dim 0) >>= fun g =>
        pure ((dim : Int), g)) (List.range shape.length) := rfl

theorem normalizeGroups_none_eq (shape : List Nat) (dl : List String) :
    normalizeGroups shape dl none =
      defaultGroups dl shape >>= fun es => .ok (.ngDict es) := rfl

theorem normalizeGroups_gsList_eq (shape : List Nat) (dl : List String)
    (l : List GroupArg) :
    normalizeGroups shape dl (some (.gsList l)) =
      exceptMap (fun dim => pyIndexNat shape (Int.ofNat dim) >>= fun len =>
        _check_dict (l.getD dim (.gseq [])) len) (List.range l.length) >>=
        fun gs => .ok (.ngList gs) := rfl

/-! Lemmas about `invertEntries`, the nested loop shared by the two
validating branches of `_check_dict`. -/

theorem extStr_eq (e : Key × Val) :
    extStr e = iterVal e.2 >>= fun ks => pure (ks, keyAsVal e.1) := rfl

theorem extTup_eq (e : Key × Val) :
    extTup e = keyIter e.1 >>= fun ks => pure (ks, e.2) := rfl

theorem invertEntries_nil (ext : Key × Val → Except Err (List Key × Val))
    (acc : List (Key × Val) × List Key) :
    invertEntries ext [] acc = .ok acc := rfl

theorem invertEntries_cons (ext : Key × Val → Except Err (List Key × Val))
    (e : Key × Val) (rest : List (Key × Val))
    (acc : List (Key × Val) × List Key) :
    invertEntries ext (e :: rest) acc = ext e >>= fun kv =>
      invertEntries ext rest
        (kv.1.foldl (fun a x => (dictInsert a.1 x kv.2, listInsert a.2 x)) acc) := rfl

theorem foldl_pair_fst (v : Val) :
    ∀ (ks : List Key) (acc : List (Key × Val) × List Key),
      (ks.foldl (fun a x => (dictInsert a.1 x v, listInsert a.2 x)) acc).1 =
        ks.foldl (fun dd x => dictInsert dd x v) acc.1 := by
  intro ks
  induction ks with
  | nil => intro acc; rfl
  | cons k ks ih =>
    intro acc
    rw [List.foldl_cons, List.foldl_cons]
    exact ih (dictInsert acc.1 k v, listInsert acc.2 k)

theorem foldl_pair_snd (v : Val) :
    ∀ (ks : List Key) (acc : List (Key × Val) × List Key),
      (ks.foldl (fun a x => (dictInsert a.1 x v, listInsert a.2 x)) acc).2 =
        ks.foldl listInsert acc.2 := by
  intro ks
  induction ks with
  | nil => intro acc; rfl
  | cons k ks ih =>
    intro acc
    rw [List.foldl_cons, List.foldl_cons]
    exact ih (dictInsert acc.1 k v, listInsert acc.2 k)

theorem mem_listInsert (l : List Key) (x y : Key) :
    y ∈ listInsert l x ↔ y ∈ l ∨ y = x := by
  unfold listInsert
  by_cases h : x ∈ l
  · rw [if_pos h]
    constructor
    · exact Or.inl
    · rintro (hy | rfl)
      exacts [hy, h]
  · rw [if_neg h]
    simp [List.mem_append]

theorem nodup_listInsert (l : List Key) (x : Key) (hl : l.Nodup) :
    (listInsert l x).Nodup := by
  unfold listInsert
  by_cases h : x ∈ l
  · rw [if_pos h]
    exact hl
  · rw [if_neg h]
    simp [List.nodup_append, hl, h]

theorem mem_foldl_listInsert :
    ∀ (ks : List Key) (init : List Key) (y : Key),
      y ∈ ks.foldl listInsert init ↔ y ∈ init ∨ y ∈ ks := by
  intro ks
  induction ks with
  | nil => intro init y; simp
  | cons k ks ih =>
    intro init y
    rw [List.foldl_cons, ih, mem_listInsert, List.mem_cons]
    tauto

theorem nodup_foldl_listInsert :
    ∀ (ks : List Key) (init : List Key), init.Nodup →
      (ks.foldl listInsert init).Nodup := by
  intro ks
  induction ks with
  | nil => intro init h; exact h
  | cons k ks ih =>
    intro init h
    rw [List.foldl_cons]
    exact ih (listInsert init k) (nodup_listInsert init k h)

theorem invertEntries_ok_of_all (ext : Key × Val → Except Err (List Key × Val)) :
    ∀ (entries : List (Key × Val)) (acc : List (Key × Val) × List Key),
      (∀ e ∈ entries, ∃ kv, ext e = .ok kv) →
      ∃ r, invertEntries ext entries acc = .ok r := by
  intro entries
  induction entries with
  | nil => intro acc _; exact ⟨acc, rfl⟩
  | cons e rest ih =>
    intro acc h
    obtain ⟨kv, hkv⟩ := h e (List.mem_cons_self e rest)
    obtain ⟨r, hr⟩ := ih
      (kv.1.foldl (fun a x => (dictInsert a.1 x kv.2, listInsert a.2 x)) acc)
      (fun x hx => h x (List.mem_cons_of_mem e hx))
    exact ⟨r, by rw [invertEntries_cons, hkv, seq_ok]; exact hr⟩

theorem invertEntries_ok_snd (ext : Key × Val → Except Err (List Key × Val)) :
    ∀ (entries : List (Key × Val)) (acc : List (Key × Val) × List Key)
      (r : List (Key × Val) × List Key),
      invertEntries ext entries acc = .ok r →
      (acc.2.Nodup → r.2.Nodup) ∧
      (∀ x, x ∈ r.2 ↔ x ∈ acc.2 ∨
        ∃ e ∈ entries, ∃ kv, ext e = .ok kv ∧ x ∈ kv.1) := by
  intro entries
  induction entries with
  | nil =>
    intro acc r h
    rw [invertEntries_nil] at h
    cases h
    exact ⟨id, fun x => by simp⟩
  | cons e rest ih =>
    intro acc r h
    rw [invertEntries_cons] at h
    cases hkv : ext e with
    | error er => rw [hkv, seq_error] at h; cases h
    | ok kv =>
      rw [hkv, seq_ok] at h
      have hrec := ih _ r h
      constructor
      · intro hnd
        apply hrec.1
        rw [foldl_pair_snd]
        exact nodup_foldl_listInsert _ _ hnd
      · intro x
        rw [hrec.2 x, foldl_pair_snd, mem_foldl_listInsert]
        constructor
        · rintro ((hx | hx) | ⟨e2, he2, kv2, hkv2, hxkv⟩)
          · exact Or.inl hx
          · exact Or.inr ⟨e, List.mem_cons_self e rest, kv, hkv, hx⟩
          · exact Or.inr ⟨e2, List.mem_cons_of_mem e he2, kv2, hkv2, hxkv⟩
        · rintro (hx | ⟨e2, he2, kv2, hkv2, hxkv⟩)
          · exact Or.inl (Or.inl hx)
          · rcases List.mem_cons.mp he2 with rfl | hmem
            · have : kv = kv2 := Except.ok.inj (hkv.symm.trans hkv2)
              exact Or.inl (Or.inr (this ▸ hxkv))
            · exact Or.inr ⟨e2, hmem, kv2, hkv2, hxkv⟩

theorem length_eq_of_nodup_of_mem_iff {l1 l2 : List Key}
    (h1 : l1.Nodup) (h2 : l2.Nodup) (h : ∀ x, x ∈ l1 ↔ x ∈ l2) :
    l1.length = l2.length := by
  have hfs : l1.toFinset = l2.toFinset := by
    apply Finset.ext
    intro x
    rw [List.mem_toFinset, List.mem_toFinset]
    exact h x
  rw [← List.toFinset_card_of_nodup h1, ← List.toFinset_card_of_nodup h2, hfs]

theorem invertEntries_set_card (ext : Key × Val → Except Err (List Key × Val))
    (d : List (Key × Val)) (posL : List Key)
    (hall : ∀ e ∈ d, ∃ kv, ext e = .ok kv)
    (hposs : ∀ x, (∃ e ∈ d, ∃ kv, ext e = .ok kv ∧ x ∈ kv.1) ↔ x ∈ posL) :
    ∃ r, invertEntries ext d ([], []) = .ok r ∧
      r.2.length = posL.dedup.length := by
  obtain ⟨r, hr⟩ := invertEntries_ok_of_all ext d ([], []) hall
  have hchar := invertEntries_ok_snd ext d ([], []) r hr
  have hnd : r.2.Nodup := hchar.1 List.nodup_nil
  refine ⟨r, hr, length_eq_of_nodup_of_mem_iff hnd (List.nodup_dedup _) ?_⟩
  intro x
  rw [List.mem_dedup, ← hposs x, hchar.2 x]
  simp

theorem extStr_all_ok (d : List (Key × Val)) (hv : allVints d = true) :
    ∀ e ∈ d, ∃ kv, extStr e = .ok kv := by
  intro e he
  have hpred := List.all_eq_true.mp hv e he
  cases hval : e.2 with
  | vints ls =>
    exact ⟨(ls.map Key.kint, keyAsVal e.1), by rw [extStr_eq, hval]; rfl⟩
  | vstr s => rw [hval] at hpred; cases hpred
  | vint m => rw [hval] at hpred; cases hpred
  | vnan => rw [hval] at hpred; cases hpred

theorem extTup_all_ok (d : List (Key × Val)) (ht : tupleKeys d = true) :
    ∀ e ∈ d, ∃ kv, extTup e = .ok kv := by
  intro e he
  have hpred := List.all_eq_true.mp ht e he
  cases hval : e.1 with
  | ktup ls =>
    exact ⟨(ls.map Key.kint, e.2), by rw [extTup_eq, hval]; rfl⟩
  | kstr s => rw [hval] at hpred; cases hpred
  | kint m => rw [hval] at hpred; cases hpred

theorem strPositions_mem (d : List (Key × Val)) (hv : allVints d = true) :
    ∀ x, (∃ e ∈ d, ∃ kv, extStr e = .ok kv ∧ x ∈ kv.1) ↔ x ∈ strPositions d := by
  intro x
  unfold strPositions
  rw [List.mem_flatMap]
  constructor
  · rintro ⟨e, he, kv, hkv, hx⟩
    refine ⟨e, he, ?_⟩
    have hpred := List.all_eq_true.mp hv e he
    cases hval : e.2 with
    | vints ls =>
      rw [extStr_eq, hval] at hkv
      have hkv2 : kv = (ls.map Key.kint, keyAsVal e.1) :=
        (Except.ok.inj hkv).symm
      rw [hkv2] at hx
      exact hx
    | vstr s => rw [hval] at hpred; cases hpred
    | vint m => rw [hval] at hpred; cases hpred
    | vnan => rw [hval] at hpred; cases hpred
  · rintro ⟨e, he, hx⟩
    have hpred := List.all_eq_true.mp hv e he
    cases hval : e.2 with
    | vints ls =>
      rw [hval] at hx
      exact ⟨e, he, (ls.map Key.kint, keyAsVal e.1),
        by rw [extStr_eq, hval]; rfl, hx⟩
    | vstr s => rw [hval] at hpred; cases hpred
    | vint m => rw [hval] at hpred; cases hpred
    | vnan => rw [hval] at hpred; cases hpred

theorem tupPositions_mem (d : List (Key × Val)) (ht : tupleKeys d = true) :
    ∀ x, (∃ e ∈ d, ∃ kv, extTup e = .ok kv ∧ x ∈ kv.1) ↔ x ∈ tupPositions d := by
  intro x
  unfold tupPositions
  rw [List.mem_flatMap]
  constructor
  · rintro ⟨e, he, kv, hkv, hx⟩
    refine ⟨e, he, ?_⟩
    have hpred := List.all_eq_true.mp ht e he
    cases hval : e.1 with
    | ktup ls =>
      rw [extTup_eq, hval] at hkv
      have hkv2 : kv = (ls.map Key.kint, e.2) := (Except.ok.inj hkv).symm
      rw [hkv2] at hx
      exact hx
    | kstr s => rw [hval] at hpred; cases hpred
    | kint m => rw [hval] at hpred; cases hpred
  · rintro ⟨e, he, hx⟩
    have hpred := List.all_eq_true.mp ht e he
    cases hval : e.1 with
    | ktup ls =>
      rw [hval] at hx
      exact ⟨e, he, (ls.map Key.kint, e.2), by rw [extTup_eq, hval]; rfl, hx⟩
    | kstr s => rw [hval] at hpred; cases hpred
    | kint m => rw [hval] at hpred; cases hpred

theorem check_dict_str_eq (d : List (Key × Val)) (n : Nat)
    (hs : strKeys d = true) :
    _check_dict (.gdict d) n = invertEntries extStr d ([], []) >>= fun r =>
      if r.2.length = n then .ok (.gdict r.1) else .error .assertionError := by
  simp only [_check_dict, hs, if_true]
  rfl

theorem check_dict_tup_eq (d : List (Key × Val)) (n : Nat)
    (hs : strKeys d = false) (ht : tupleKeys d = true) :
    _check_dict (.gdict d) n = invertEntries extTup d ([], []) >>= fun r =>
      if r.2.length = n then .ok (.gdict r.1) else .error .assertionError := by
  simp only [_check_dict, hs, ht]
  rfl

theorem check_dict_gseq_eq (l : List Val) (n : Nat) :
    _check_dict (.gseq l) n =
      if l.length = n then .ok (.gseq l) else .error .assertionError := rfl

/-- The unvalidated fall-through branch of `_check_dict` (line 386): a
dict that is neither all-string-keyed nor all-tuple-keyed is returned
unchanged. -/
theorem check_dict_unvalidated (d : List (Key × Val)) (n : Nat)
    (hs : strKeys d = false) (ht : tupleKeys d = false) :
    _check_dict (.gdict d) n = .ok (.gdict d) := by
  simp only [_check_dict, hs, ht]
  rfl

theorem strKeys_false_of_tupleKeys_cons (e : Key × Val) (rest : List (Key × Val))
    (ht : tupleKeys (e :: rest) = true) : strKeys (e :: rest) = false := by
  unfold tupleKeys at ht
  rw [List.all_cons] at ht
  have h1 := (Bool.and_eq_true _ _).mp ht
  unfold strKeys
  rw [List.all_cons]
  cases hval : e.1 with
  | ktup ls => rfl
  | kstr s => rw [hval] at h1; cases h1.1
  | kint m => rw [hval] at h1; cases h1.1

/-- Validation failure of `_check_dict` for the two validated dict
encodings when the distinct-position count is off. -/
theorem check_dict_assert_error (d : List (Key × Val)) (n : Nat)
    (hd : (strKeys d = true ∧ allVints d = true ∧
        (strPositions d).dedup.length ≠ n) ∨
      (tupleKeys d = true ∧ (tupPositions d).dedup.length ≠ n)) :
    _check_dict (.gdict d) n = .error .assertionError := by
  rcases hd with ⟨hs, hv, hne⟩ | ⟨ht, hne⟩
  · obtain ⟨r, hr, hlen⟩ := invertEntries_set_card extStr d (strPositions d)
      (extStr_all_ok d hv) (strPositions_mem d hv)
    rw [check_dict_str_eq d n hs, hr, seq_ok, if_neg (by rw [hlen]; exact hne)]
  · cases d with
    | nil =>
      rw [check_dict_str_eq [] n rfl, invertEntries_nil, seq_ok]
      have h0 : (tupPositions ([] : List (Key × Val))).dedup.length = 0 := rfl
      rw [h0] at hne
      rw [if_neg (by simpa using hne)]
    | cons e rest =>
      have hs := strKeys_false_of_tupleKeys_cons e rest ht
      obtain ⟨r, hr, hlen⟩ := invertEntries_set_card extTup (e :: rest)
        (tupPositions (e :: rest)) (extTup_all_ok (e :: rest) ht)
        (tupPositions_mem (e :: rest) ht)
      rw [check_dict_tup_eq (e :: rest) n hs ht, hr, seq_ok,
        if_neg (by rw [hlen]; exact hne)]

/-! Lemmas about `setByName` and `buildRow`, for the row-content claims. -/

theorem setByName_cons (c : String) (cs : List String) (r0 : Val)
    (row : List Val) (name : String) (v : Val) :
    setByName (c :: cs) (r0 :: row) name v =
      (if c = name then v else r0) :: setByName cs row name v := rfl

theorem length_setByName (cs : List String) (row : List Val) (name : String)
    (v : Val) : (setByName cs row name v).length = min cs.length row.length := by
  simp [setByName]

theorem enum_fst_lt {α : Type} (l : List α) (e : Nat × α) (he : e ∈ l.enum) :
    e.1 < l.length := by
  rw [List.enum_eq_zip_range] at he
  rcases e with ⟨i, x⟩
  exact List.mem_range.mp (List.of_mem_zip he).1

theorem buildRow_eq (arr : NDArray) (dn : DimNames) (gN : NGroups)
    (cs : List String) (vn : String) (adr : List Nat) :
    buildRow arr dn gN cs vn adr = ndget arr adr >>= fun v =>
      exceptFoldl (fun row e =>
        ngLookup gN e.1 >>= fun grp =>
        groupLookup grp e.2 >>= fun lbl =>
        dnLookup dn e.1 >>= fun name =>
        pure (setByName cs row name lbl))
      (setByName cs (List.replicate cs.length Val.vnan) vn v) adr.enum := rfl

/-- When every dimension-name the loop writes differs from `value_name`,
the value column (position 0) of a built row is exactly the array element
at that row's address. -/
theorem buildRow_value (arr : NDArray) (dn : DimNames) (gN : NGroups)
    (dimCols : List String) (vn : String) (adr : List Nat) (row : List Val)
    (hnames : ∀ i, i < adr.length → ∀ s, dnLookup dn i = .ok s → s ≠ vn)
    (h : buildRow arr dn gN (vn :: dimCols) vn adr = .ok row) :
    ndget arr adr = .ok (row.getD 0 .vnan) := by
  rw [buildRow_eq] at h
  cases hv : ndget arr adr with
  | error e => rw [hv, seq_error] at h; cases h
  | ok v =>
    rw [hv, seq_ok] at h
    have hinit : (setByName (vn :: dimCols)
        (List.replicate (vn :: dimCols).length Val.vnan) vn v).length =
          dimCols.length + 1 ∧
        (setByName (vn :: dimCols)
          (List.replicate (vn :: dimCols).length Val.vnan) vn v).getD 0
          .vnan = v := by
      have hrep : List.replicate (vn :: dimCols).length Val.vnan =
          Val.vnan :: List.replicate dimCols.length Val.vnan := by
        rw [List.length_cons, List.replicate_succ]
      rw [hrep, setByName_cons, if_pos rfl]
      constructor
      · rw [List.length_cons, length_setByName, List.length_replicate]
        simp
      · rfl
    have hstepP : ∀ r e r', e ∈ adr.enum →
        (r.length = dimCols.length + 1 ∧ r.getD 0 .vnan = v) →
        (ngLookup gN e.1 >>= fun grp =>
          groupLookup grp e.2 >>= fun lbl =>
          dnLookup dn e.1 >>= fun name =>
          pure (setByName (vn :: dimCols) r name lbl)) = .ok r' →
        r'.length = dimCols.length + 1 ∧ r'.getD 0 .vnan = v := by
      intro r e r' he hPr hstep
      cases hg : ngLookup gN e.1 with
      | error er => rw [hg, seq_error] at hstep; cases hstep
      | ok grp =>
        rw [hg, seq_ok] at hstep
        cases hl : groupLookup grp e.2 with
        | error er => rw [hl, seq_error] at hstep; cases hstep
        | ok lbl =>
          rw [hl, seq_ok] at hstep
          cases hd : dnLookup dn e.1 with
          | error er => rw [hd, seq_error] at hstep; cases hstep
          | ok name =>
            rw [hd, seq_ok] at hstep
            have hstep2 : Except.ok (setByName (vn :: dimCols) r name lbl) =
                (Except.ok r' : Except Err (List Val)) := hstep
            have hr' : r' = setByName (vn :: dimCols) r name lbl :=
              (Except.ok.inj hstep2).symm
            have hname : name ≠ vn :=
              hnames e.1 (enum_fst_lt adr e he) name hd
            cases r with
            | nil => exact absurd hPr.1 (by simp)
            | cons r0 rest =>
              have hrest : rest.length = dimCols.length := by
                have h1 := hPr.1
                rw [List.length_cons] at h1
                omega
              rw [hr', setByName_cons]
              constructor
              · rw [List.length_cons, length_setByName, hrest]
                simp
              · rw [if_neg (fun hh => hname hh.symm)]
                have h2 := hPr.2
                simpa using h2
    have hP := exceptFoldl_preserve
      (fun r => r.length = dimCols.length + 1 ∧ r.getD 0 .vnan = v)
      hinit hstepP h
    rw [hP.2]

/-- C6: a label-keyed (all-string-keyed, iterable values) or tuple-keyed
group specification whose distinct described positions do not number
exactly `dim_len` makes `_check_dict` fail with an `AssertionError`, and
`array2df` propagates the failure: no table at all is returned when such a
spec sits at a dimension of the groups list. -/
theorem spec_c6_thm (d : List (Key × Val)) (n : Nat)
    (hd : (strKeys d = true ∧ allVints d = true ∧
        (strPositions d).dedup.length ≠ n) ∨
      (tupleKeys d = true ∧ (tupPositions d).dedup.length ≠ n)) :
    _check_dict (.gdict d) n = .error .assertionError ∧
    ∀ (arr : NDArray) (dimN : Option DimNames) (vn : String) (hI hC : Bool)
      (l : List GroupArg) (dim : Nat), dim < l.length →
      l.getD dim (.gseq []) = .gdict d →
      pyIndexNat arr.shape (Int.ofNat dim) = .ok n →
      ∀ df, array2df arr dimN (some (.gsList l)) vn hI hC ≠ .ok df := by
  have hcheck := check_dict_assert_error d n hd
  refine ⟨hcheck, ?_⟩
  intro arr dimN vn hI hC l dim hdim hget hpy df hok
  have hpop := array2df_ok_populate hok
  rw [populate_eq] at hpop
  cases hn : normalizeGroups arr.shape (letters.take arr.shape.length)
    (some (.gsList l)) with
  | error e => rw [hn, seq_error] at hpop; cases hpop
  | ok gN =>
    rw [normalizeGroups_gsList_eq] at hn
    cases hm : exceptMap (fun dim => pyIndexNat arr.shape (Int.ofNat dim) >>=
        fun len => _check_dict (l.getD dim (.gseq [])) len)
        (List.range l.length) with
    | error e => rw [hm, seq_error] at hn; cases hn
    | ok gs =>
      obtain ⟨y, hy⟩ := exceptMap_ok_mem hm dim (List.mem_range.mpr hdim)
      rw [hpy, seq_ok, hget, hcheck] at hy
      cases hy

/-- C6 witness: `{'A': [0, 2]}` describes 2 distinct positions, so it
fails for a dimension of length 3, and the melt of a length-3 array with
it returns no table. -/
theorem spec_c6_witness :
    _check_dict (.gdict exDictC6) 3 = .error .assertionError ∧
    array2df exArr3 none (some (.gsList [.gdict exDictC6])) "value" true true ≠
      .ok ⟨[], []⟩ :=
  ⟨(spec_c6_thm exDictC6 3 (Or.inl ⟨rfl, rfl, by decide⟩)).1,
    (spec_c6_thm exDictC6 3 (Or.inl ⟨rfl, rfl, by decide⟩)).2 exArr3 none
      "value" true true [.gdict exDictC6] 0 (by decide) rfl rfl ⟨[], []⟩⟩


/-- C4: for every 2x2 array with default arguments, `array2df` returns
exactly 4 rows in row-major order; row `k` has the value column equal to
`A[k / 2, k % 2]` (i.e. the flat element `k`), the `dim_i` column equal to
`"i" ++ toString (k / 2)` and the `dim_j` column equal to
`"j" ++ toString (k % 2)`, spelled out for `k = 0, 1, 2, 3`. -/
theorem spec_c4_thm (a b c d : Int) :
    array2df (exArr22 a b c d) none none "value" true true =
      .ok ⟨["value", "dim_i", "dim_j"],
        [[.vint a, .vstr "i0", .vstr "j0"],
         [.vint b, .vstr "i0", .vstr "j1"],
         [.vint c, .vstr "i1", .vstr "j0"],
         [.vint d, .vstr "i1", .vstr "j1"]]⟩ := rfl

/-- C10: a dict whose keys are neither all strings nor all tuples (for
example an integer-position-keyed canonical dict) is returned unchanged by
`_check_dict` for every `dim_len`, with no validation of any kind. -/
theorem spec_c10_thm (d : List (Key × Val)) (n : Nat)
    (hs : strKeys d = false) (ht : tupleKeys d = false) :
    _check_dict (.gdict d) n = .ok (.gdict d) :=
  check_dict_unvalidated d n hs ht

/-- C10 witness: a one-entry integer-keyed dict passes `_check_dict`
unchanged at the mismatched `dim_len` 5. -/
theorem spec_c10_witness :
    strKeys [(Key.kint 0, Val.vstr "a")] = false ∧
    tupleKeys [(Key.kint 0, Val.vstr "a")] = false ∧
    _check_dict (.gdict [(Key.kint 0, Val.vstr "a")]) 5 =
      .ok (.gdict [(Key.kint 0, Val.vstr "a")]) :=
  ⟨rfl, rfl, spec_c10_thm [(Key.kint 0, Val.vstr "a")] 5 rfl rfl⟩

/-- C2 counterexample: in the spec's concrete scenario
(`arange(12).reshape(4,3)`, `dim_names=["first","second"]`,
`value_name="array_value"`, `groups=[{'A':[0,2],'B':[1,3]},
{(0,2):'abc',(1,):'d'}]`), row 4's `second` column is `"d"`, not the
`"abc"` the claim states (row 4 is the address `(1, 1)` and position 1 of
dimension 1 is grouped by the tuple `(1,)` to `"d"`). -/
theorem spec_c2_counterexample :
    (array2df exArr43 (some (.dnList ["first", "second"])) (some exGroups43)
        "array_value" true true).toOption.map
        (fun df => (df.rows.getD 4 []).getD 2 Val.vnan) = some (.vstr "d") ∧
    Val.vstr "d" ≠ Val.vstr "abc" := ⟨rfl, by decide⟩

/-- C2 amended: in the spec's concrete scenario, row 0 equals
`(0, "A", "abc")` and row 4 equals `(4, "B", "d")` in the columns
`(array_value, first, second)`. -/
theorem spec_c2_thm :
    (array2df exArr43 (some (.dnList ["first", "second"])) (some exGroups43)
        "array_value" true true).toOption.map
        (fun df => (df.colNames, df.rows.getD 0 [], df.rows.getD 4 [])) =
      some (["array_value", "first", "second"],
        [.vint 0, .vstr "A", .vstr "abc"],
        [.vint 4, .vstr "B", .vstr "d"]) := rfl

/-- C1 counterexample: when `value_name` collides with a dimension column
name the melt still succeeds, with `product(shape)` rows and `N + 1`
columns, but the value column no longer holds the array element: for the
one-element array `[7]` with `dim_names = ["value"]` and the default
`value_name = "value"`, the later per-dimension `df.loc` write hits every
column named `"value"`, so row 0's value column is the label `"i0"`,
not `7`. -/
theorem spec_c1_counterexample :
    array2df exArr1 (some (.dnList ["value"])) none "value" true true =
      .ok ⟨["value", "value"], [[.vstr "i0", .vstr "i0"]]⟩ ∧
    Val.vstr "i0" ≠ Val.vint 7 ∧ exArr1.data.getD 0 0 = 7 :=
  ⟨rfl, by decide, rfl⟩

/-- C3 counterexample: an already-canonical integer-position-keyed dict
`{0:'a', 1:'b', 2:'c'}` describes positions `{0, 1, 2}`, which is not the
set `{0, 1}` required for a dimension of length 2 — yet `_check_dict`
returns it unchanged (no normalization-time failure) and `array2df`
returns a complete table for the shape-`(2,)` array `[5, 6]`. -/
theorem spec_c3_counterexample :
    _check_dict (.gdict exDict012) 2 = .ok (.gdict exDict012) ∧
    array2df exArr2 none (some (.gsList [.gdict exDict012])) "value" true true =
      .ok ⟨["value", "dim_i"], [[.vint 5, .vstr "a"], [.vint 6, .vstr "b"]]⟩ :=
  ⟨rfl, rfl⟩

/-- C3 amended: normalization-time validation checks only a count. A
label-keyed dict (all-string keys, iterable integer-position values)
passes iff its number of distinct described positions equals `shape[d]`; a
tuple-keyed dict passes iff its distinct tuple-element count equals
`shape[d]`; a non-dict sequence passes iff its length equals `shape[d]`;
an already-canonical dict with keys neither all strings nor all tuples is
returned without any validation. Whether the positions are the exact set
`{0..shape[d]-1}`, duplicated, or out of range is never checked at
normalization time. -/
theorem spec_c3_thm (d : List (Key × Val)) (l : List Val) (n : Nat) :
    (strKeys d = true → allVints d = true →
      ((∃ r, _check_dict (.gdict d) n = .ok r) ↔
        (strPositions d).dedup.length = n)) ∧
    (tupleKeys d = true →
      ((∃ r, _check_dict (.gdict d) n = .ok r) ↔
        (tupPositions d).dedup.length = n)) ∧
    (strKeys d = false → tupleKeys d = false →
      _check_dict (.gdict d) n = .ok (.gdict d)) ∧
    ((∃ r, _check_dict (.gseq l) n = .ok r) ↔ l.length = n) := by
  refine ⟨?_, ?_, check_dict_unvalidated d n, ?_⟩
  · intro hs hv
    obtain ⟨r, hr, hlen⟩ := invertEntries_set_card extStr d (strPositions d)
      (extStr_all_ok d hv) (strPositions_mem d hv)
    rw [check_dict_str_eq d n hs, hr, seq_ok]
    constructor
    · rintro ⟨r2, hr2⟩
      by_cases h : r.2.length = n
      · rw [← hlen]; exact h
      · rw [if_neg h] at hr2; cases hr2
    · intro hcount
      rw [if_pos (by rw [hlen]; exact hcount)]
      exact ⟨.gdict r.1, rfl⟩
  · intro ht
    cases d with
    | nil =>
      rw [check_dict_str_eq [] n rfl, invertEntries_nil, seq_ok]
      constructor
      · rintro ⟨r2, hr2⟩
        by_cases h : (([], []) : List (Key × Val) × List Key).2.length = n
        · simpa using h
        · rw [if_neg h] at hr2; cases hr2
      · intro hcount
        rw [if_pos (by simpa using hcount)]
        exact ⟨_, rfl⟩
    | cons e rest =>
      have hs := strKeys_false_of_tupleKeys_cons e rest ht
      obtain ⟨r, hr, hlen⟩ := invertEntries_set_card extTup (e :: rest)
        (tupPositions (e :: rest)) (extTup_all_ok (e :: rest) ht)
        (tupPositions_mem (e :: rest) ht)
      rw [check_dict_tup_eq (e :: rest) n hs ht, hr, seq_ok]
      constructor
      · rintro ⟨r2, hr2⟩
        by_cases h : r.2.length = n
        · rw [← hlen]; exact h
        · rw [if_neg h] at hr2; cases hr2
      · intro hcount
        rw [if_pos (by rw [hlen]; exact hcount)]
        exact ⟨.gdict r.1, rfl⟩
  · rw [check_dict_gseq_eq]
    constructor
    · rintro ⟨r2, hr2⟩
      by_cases h : l.length = n
      · exact h
      · rw [if_neg h] at hr2; cases hr2
    · intro h
      rw [if_pos h]
      exact ⟨.gseq l, rfl⟩

/-- C3 witness: the integer-keyed dict passes unvalidated at the
mismatched length 5, and the label-keyed `{'A': [0, 2]}` passes for a
dimension of length 2 exactly because it describes 2 distinct positions
(even though it is out of range for nothing here; the count is all that is
checked). -/
theorem spec_c3_witness :
    _check_dict (.gdict exDict012) 5 = .ok (.gdict exDict012) ∧
    ((∃ r, _check_dict (.gdict exDictC6) 2 = .ok r) ↔
      (strPositions exDictC6).dedup.length = 2) :=
  ⟨(spec_c3_thm exDict012 [] 5).2.2.1 rfl rfl,
    (spec_c3_thm exDictC6 [] 2).1 rfl rfl⟩

/-- C7 counterexample: a nine-dimensional array whose ninth dimension has
zero length fails with a `KeyError` (the default `dim_names` dict has keys
0..7 only), not the `IndexError` the claim states — the letter-pool lookup
`dim_letters[8]` inside the default-groups comprehension is skipped
because its inner `range(0)` is empty. -/
theorem spec_c7_counterexample :
    array2df exArr9z none none "value" true true = .error .keyError ∧
    Err.keyError ≠ Err.indexError ∧ exArr9z.shape.length = 9 :=
  ⟨rfl, by decide, rfl⟩

/-- C8 counterexample: on an input whose row population succeeds, a pandas
version supporting neither `infer_objects` nor `convert_objects` makes
`array2df` raise: the bare `except` catches the first failure but the
fallback `convert_objects` call is unguarded, so dtype inference can fail
the whole operation instead of falling back to uninferred columns. -/
theorem spec_c8_counterexample :
    populate exArr1 none none "value" = .ok exDf1 ∧
    array2df exArr1 none none "value" false false = .error .attributeError :=
  ⟨rfl, rfl⟩

/-- C8 amended: when row population succeeds, `array2df` returns the
populated table whenever `infer_objects` is supported, and also when it is
unsupported but the legacy `convert_objects` fallback is supported (the
failure is caught); the operation fails — with an `AttributeError` — only
when both calls are unsupported. -/
theorem spec_c8_thm (arr : NDArray) (dn : Option DimNames) (g : Option GroupsArg)
    (vn : String) (df : DataFrame) (h : populate arr dn g vn = .ok df) :
    array2df arr dn g vn true true = .ok df ∧
    array2df arr dn g vn false true = .ok df ∧
    array2df arr dn g vn false false = .error .attributeError := by
  refine ⟨?_, ?_, ?_⟩ <;> simp only [array2df, h] <;> rfl

/-- C8 witness: the three outcomes at the concrete array `[7]`. -/
theorem spec_c8_witness :
    array2df exArr1 none none "value" true true = .ok exDf1 ∧
    array2df exArr1 none none "value" false true = .ok exDf1 ∧
    array2df exArr1 none none "value" false false = .error .attributeError :=
  spec_c8_thm exArr1 none none "value" exDf1 rfl

/-- C7 amended: under default `dim_names` and `groups`, an array with more
than 8 dimensions always makes `array2df` fail before any table is built —
with an `IndexError` (letter pool `i..p` exhausted inside the
default-groups comprehension) whenever some dimension at index 8 or above
has nonzero length, and otherwise (every such dimension empty, so the
letter lookup is skipped) with a `KeyError` on the default dimension-name
dict; in no case is a table returned. -/
theorem spec_c7_thm (arr : NDArray) (vn : String) (hI hC : Bool)
    (h9 : 8 < arr.shape.length) :
    ((∃ dim, 8 ≤ dim ∧ dim < arr.shape.length ∧ arr.shape.getD dim 0 ≠ 0) →
        array2df arr none none vn hI hC = .error .indexError) ∧
    ((∀ dim, 8 ≤ dim → dim < arr.shape.length → arr.shape.getD dim 0 = 0) →
        array2df arr none none vn hI hC = .error .keyError) ∧
    ∀ df, array2df arr none none vn hI hC ≠ .ok df := by
  have hletters : letters.take arr.shape.length = letters :=
    List.take_of_length_le (Nat.le_of_lt h9)
  have hcaseA : (∃ dim, 8 ≤ dim ∧ dim < arr.shape.length ∧
      arr.shape.getD dim 0 ≠ 0) →
      array2df arr none none vn hI hC = .error .indexError := by
    rintro ⟨dim, h8, hlt, hnz⟩
    apply array2df_error_of_populate
    apply populate_error_norm
    rw [hletters, normalizeGroups_none_eq, defaultGroups_eq]
    have hfail : defaultGroupsDim letters dim (arr.shape.getD dim 0) =
        .error .indexError := by
      unfold defaultGroupsDim
      rw [if_neg hnz]
      have hnone : letters.get? dim = none := List.get?_eq_none.mpr h8
      rw [hnone]
    have hmap : exceptMap (fun d =>
        defaultGroupsDim letters d (arr.shape.getD d 0) >>= fun g =>
          pure ((d : Int), g)) (List.range arr.shape.length) =
        .error .indexError := by
      apply exceptMap_error_uniform
      · intro x _
        rcases defaultGroupsDim_cases letters x (arr.shape.getD x 0) with
          ⟨g, hg⟩ | hg
        · exact Or.inl ⟨((x : Int), g), by rw [hg, seq_ok]; rfl⟩
        · exact Or.inr (by rw [hg, seq_error])
      · exact ⟨dim, List.mem_range.mpr hlt, by rw [hfail, seq_error]⟩
    rw [hmap, seq_error]
  have hcaseB : (∀ dim, 8 ≤ dim → dim < arr.shape.length →
      arr.shape.getD dim 0 = 0) →
      array2df arr none none vn hI hC = .error .keyError := by
    intro hz
    apply array2df_error_of_populate
    have hok : ∀ x ∈ List.range arr.shape.length,
        ∃ y, (defaultGroupsDim letters x (arr.shape.getD x 0) >>= fun g =>
          pure (((x : Int), g) : Int × GroupArg)) = .ok y := by
      intro x hx
      rcases defaultGroupsDim_cases letters x (arr.shape.getD x 0) with
        ⟨g, hg⟩ | hg
      · exact ⟨((x : Int), g), by rw [hg, seq_ok]; rfl⟩
      · exfalso
        by_cases h0 : arr.shape.getD x 0 = 0
        · unfold defaultGroupsDim at hg
          rw [if_pos h0] at hg
          cases hg
        · have hx8 : x < 8 := by
            by_contra hge
            exact h0 (hz x (Nat.le_of_not_lt hge) (List.mem_range.mp hx))
          have hl : letters.get? x = some (letters.get ⟨x, hx8⟩) :=
            List.get?_eq_get (show x < letters.length from hx8)
          unfold defaultGroupsDim at hg
          rw [if_neg h0, hl] at hg
          cases hg
    obtain ⟨es, hes⟩ := exceptMap_ok_of_all hok
    have hnorm : normalizeGroups arr.shape (letters.take arr.shape.length)
        none = .ok (.ngDict es) := by
      rw [hletters, normalizeGroups_none_eq, defaultGroups_eq, hes, seq_ok]
    apply populate_error_cols hnorm
    apply exceptMap_error_uniform
    · intro x _
      rw [hletters]
      exact dnLookup_dnDict_cases _ x
    · refine ⟨8, List.mem_range.mpr h9, ?_⟩
      rw [hletters]
      rfl
  refine ⟨hcaseA, hcaseB, ?_⟩
  intro df hok
  by_cases hex : ∃ dim, 8 ≤ dim ∧ dim < arr.shape.length ∧
    arr.shape.getD dim 0 ≠ 0
  · rw [hcaseA hex] at hok; cases hok
  · push_neg at hex
    rw [hcaseB hex] at hok; cases hok

/-- C1 amended: every successful melt whose value-column name differs
from every dimension-column name yields a table with exactly
`product(shape)` rows and `N + 1` columns, where row `k`'s value column
holds the array element at the `k`-th multi-index of the row-major
enumeration of the index space (equivalently, flat row-major element `k`).
When the value column's name collides with a dimension column's name the
later per-dimension write overwrites it (see the counterexample). -/
theorem spec_c1_thm (arr : NDArray) (dn : Option DimNames)
    (g : Option GroupsArg) (vn : String) (hI hC : Bool) (df : DataFrame)
    (h : array2df arr dn g vn hI hC = .ok df)
    (hdistinct : ∀ c ∈ df.colNames.tail, c ≠ vn) :
    df.rows.length = arr.shape.prod ∧
    df.colNames.length = arr.shape.length + 1 ∧
    ∀ k, k < arr.shape.prod →
      ndget arr ((indices arr.shape).getD k []) =
        .ok ((df.rows.getD k []).getD 0 .vnan) ∧
      (df.rows.getD k []).getD 0 .vnan = .vint (arr.data.getD k 0) := by
  have hpop := array2df_ok_populate h
  rw [populate_eq] at hpop
  cases hn : normalizeGroups arr.shape (letters.take arr.shape.length) g with
  | error e => rw [hn, seq_error] at hpop; cases hpop
  | ok gN =>
  rw [hn, seq_ok] at hpop
  cases hc : exceptMap
      (dnLookup (resolveDimNames (letters.take arr.shape.length) dn))
      (List.range arr.shape.length) with
  | error e => rw [hc, seq_error] at hpop; cases hpop
  | ok dimCols =>
  rw [hc, seq_ok] at hpop
  cases hrows : exceptMap (buildRow arr
      (resolveDimNames (letters.take arr.shape.length) dn) gN
      (vn :: dimCols) vn) (indices arr.shape) with
  | error e => rw [hrows, seq_error] at hpop; cases hpop
  | ok rows =>
  rw [hrows, seq_ok] at hpop
  have hdf : df = ⟨vn :: dimCols, rows⟩ := (Except.ok.inj hpop).symm
  subst hdf
  have hcols : dimCols.length = arr.shape.length := by
    rw [exceptMap_ok_length hc, List.length_range]
  have hrowslen : rows.length = arr.shape.prod := by
    rw [exceptMap_ok_length hrows, length_indices]
  have hnames : ∀ i, i < arr.shape.length → ∀ s,
      dnLookup (resolveDimNames (letters.take arr.shape.length) dn) i =
        .ok s → s ≠ vn := by
    intro i hi s hs
    have hilen : i < dimCols.length := by rw [hcols]; exact hi
    have hfi := exceptMap_ok_get hc i i (dimCols.get ⟨i, hilen⟩)
      (by rw [List.get?_eq_getElem?, List.getElem?_range hi])
      (by rw [List.get?_eq_getElem?, List.getElem?_eq_getElem hilen]; rfl)
    have hsi : s = dimCols.get ⟨i, hilen⟩ :=
      Except.ok.inj (hs.symm.trans hfi)
    rw [hsi]
    exact hdistinct _ (dimCols.get_mem i hilen)
  refine ⟨hrowslen, by simp [hcols], ?_⟩
  intro k hk
  have hkrows : k < rows.length := by rw [hrowslen]; exact hk
  have hidx : (indices arr.shape).get? k = some (unflatten arr.shape k) :=
    get_indices hk
  have hbrk := exceptMap_ok_get hrows k (unflatten arr.shape k)
    (rows.get ⟨k, hkrows⟩) hidx
    (by rw [List.get?_eq_getElem?, List.getElem?_eq_getElem hkrows]; rfl)
  have hval := buildRow_value arr
    (resolveDimNames (letters.take arr.shape.length) dn) gN dimCols vn
    (unflatten arr.shape k) (rows.get ⟨k, hkrows⟩)
    (by
      intro i hilen s hsi
      apply hnames i _ s hsi
      rw [length_unflatten] at hilen
      exact hilen) hbrk
  have hnd := ndget_unflatten arr k hk
  have hgetDrows : rows.getD k [] = rows.get ⟨k, hkrows⟩ := by
    rw [List.getD_eq_getElem rows [] hkrows]
    rfl
  have hgetDidx : (indices arr.shape).getD k [] = unflatten arr.shape k := by
    have hki : k < (indices arr.shape).length := by
      rw [length_indices]; exact hk
    have h2 := hidx
    rw [List.get?_eq_getElem?, List.getElem?_eq_getElem hki] at h2
    rw [List.getD_eq_getElem (indices arr.shape) [] hki]
    exact Option.some.inj h2
  constructor
  · rw [hgetDidx, hgetDrows]
    exact hval
  · rw [hgetDrows]
    exact Except.ok.inj (hval.symm.trans hnd)

/-- C1 witness: the 2x2 array `[10, 11, 12, 13]` under default arguments:
4 rows, 3 columns, and the value column of row 2 is flat element 2. -/
theorem spec_c1_witness :
    exDf22.rows.length = (exArr22 10 11 12 13).shape.prod ∧
    exDf22.colNames.length = (exArr22 10 11 12 13).shape.length + 1 ∧
    (exDf22.rows.getD 2 []).getD 0 .vnan =
      .vint ((exArr22 10 11 12 13).data.getD 2 0) :=
  have h := spec_c1_thm (exArr22 10 11 12 13) none none "value" true true
    exDf22 rfl (by decide)
  ⟨h.1, h.2.1, (h.2.2 2 (by decide)).2⟩

/-- C7 witness: the nine-dimensional all-ones array triggers the
`IndexError` branch. -/
theorem spec_c7_witness :
    8 < exArr9.shape.length ∧
    array2df exArr9 none none "value" true true = .error .indexError :=
  ⟨by decide, (spec_c7_thm exArr9 "value" true true (by decide)).1
    ⟨8, by decide, by decide, by decide⟩⟩

/-! Lemmas for the encoding-equivalence claim: canonical keys, label
positions, and lookups in the canonical encoding. -/

theorem pyIndexNat_ok (l : List Nat) (i : Nat) (hi : i < l.length) :
    pyIndexNat l (Int.ofNat i) = .ok (l.getD i 0) := by
  unfold pyIndexNat
  rw [show Int.ofNat i = (i : Int) from rfl]
  rw [if_neg (by omega)]
  unfold pyIndexAux
  rw [if_pos (by constructor <;> omega)]
  rw [Int.toNat_ofNat]

theorem mem_kintRangeL (n : Nat) (q : Key) :
    q ∈ kintRangeL n ↔ ∃ p, p < n ∧ q = Key.kint (Int.ofNat p) := by
  unfold kintRangeL
  rw [List.mem_map]
  constructor
  · rintro ⟨p, hp, rfl⟩
    exact ⟨p, List.mem_range.mp hp, rfl⟩
  · rintro ⟨p, hp, rfl⟩
    exact ⟨p, List.mem_range.mpr hp, rfl⟩

theorem nodup_kintRangeL (n : Nat) : (kintRangeL n).Nodup := by
  apply List.Nodup.map
  · intro a b hab
    exact Int.ofNat.inj (Key.kint.inj hab)
  · exact List.nodup_range n

theorem dedup_kintRangeL_length (n : Nat) : (kintRangeL n).dedup.length = n := by
  rw [List.dedup_eq_self.mpr (nodup_kintRangeL n)]
  unfold kintRangeL
  rw [List.length_map, List.length_range]

theorem mem_posOf (f : Nat → String) (n : Nat) (s : String) (p : Nat) :
    p ∈ posOf f n s ↔ p < n ∧ f p = s := by
  unfold posOf
  rw [List.mem_filter, List.mem_range]
  simp

theorem label_mem_labelsOf (f : Nat → String) (n : Nat) (p : Nat) (hp : p < n) :
    f p ∈ labelsOf f n := by
  unfold labelsOf
  rw [List.mem_dedup, List.mem_map]
  exact ⟨p, List.mem_range.mpr hp, rfl⟩

theorem lookupKV_append (L1 L2 : List (Key × Val)) (q : Key) :
    lookupKV (L1 ++ L2) q = (lookupKV L1 q).or (lookupKV L2 q) := by
  unfold lookupKV
  rw [List.find?_append]
  cases List.find? (fun e => e.1 = q) L1 <;> rfl

theorem lookupKV_single (k : Key) (v : Val) (q : Key) :
    lookupKV [(k, v)] q = if q = k then some v else none := by
  unfold lookupKV
  by_cases h : k = q
  · rw [List.find?_cons_of_pos _ (by simp [h]), if_pos h.symm]
    rfl
  · rw [List.find?_cons_of_neg _ (by simp [h]), if_neg (fun hh => h hh.symm)]
    rfl

theorem lookupKV_canonEnc (f : Nat → String) :
    ∀ (n : Nat) (q : Key),
      lookupKV ((List.range n).map
        (fun p => (Key.kint (Int.ofNat p), Val.vstr (f p)))) q =
        canonFun f n q := by
  intro n
  induction n with
  | zero =>
    intro q
    cases q with
    | kint qi =>
      simp only [canonFun]
      rw [if_neg (by omega)]
      rfl
    | kstr s => rfl
    | ktup t => rfl
  | succ m ih =>
    intro q
    rw [List.range_succ, List.map_append]
    simp only [List.map_cons, List.map_nil]
    rw [lookupKV_append, ih q, lookupKV_single]
    cases q with
    | kstr s =>
      simp only [canonFun]
      rw [if_neg (fun hh => Key.noConfusion hh), Option.none_or]
    | ktup t =>
      simp only [canonFun]
      rw [if_neg (fun hh => Key.noConfusion hh), Option.none_or]
    | kint qi =>
      simp only [canonFun]
      by_cases hqm : qi = (m : Int)
      · rw [if_neg (by omega), Option.none_or, if_pos (by rw [hqm]; rfl),
          if_pos (by constructor <;> omega)]
        rw [hqm, Int.toNat_ofNat]
      · have hqm2 : qi ≠ Int.ofNat m := hqm
        rw [if_neg (fun hh => hqm2 (Key.kint.inj hh)), Option.or_none]
        by_cases hc : 0 ≤ qi ∧ qi < (m : Int)
        · rw [if_pos hc, if_pos (by omega)]
        · rw [if_neg hc, if_neg (by omega)]

theorem strKeys_labelEnc (f : Nat → String) (n : Nat) :
    strKeys ((labelsOf f n).map (fun s =>
      (Key.kstr s, Val.vints ((posOf f n s).map Int.ofNat)))) = true := by
  unfold strKeys
  rw [List.all_eq_true]
  intro e he
  obtain ⟨s, _, rfl⟩ := List.mem_map.mp he
  rfl

theorem allVints_labelEnc (f : Nat → String) (n : Nat) :
    allVints ((labelsOf f n).map (fun s =>
      (Key.kstr s, Val.vints ((posOf f n s).map Int.ofNat)))) = true := by
  unfold allVints
  rw [List.all_eq_true]
  intro e he
  obtain ⟨s, _, rfl⟩ := List.mem_map.mp he
  rfl

theorem tupleKeys_tupleEnc (f : Nat → String) (n : Nat) :
    tupleKeys ((labelsOf f n).map (fun s =>
      (Key.ktup ((posOf f n s).map Int.ofNat), Val.vstr s))) = true := by
  unfold tupleKeys
  rw [List.all_eq_true]
  intro e he
  obtain ⟨s, _, rfl⟩ := List.mem_map.mp he
  rfl

theorem strKeys_canonEnc (f : Nat → String) (n : Nat) (hn : 0 < n) :
    strKeys ((List.range n).map
      (fun p => (Key.kint (Int.ofNat p), Val.vstr (f p)))) = false := by
  cases hs : strKeys ((List.range n).map
      (fun p => (Key.kint (Int.ofNat p), Val.vstr (f p)))) with
  | false => rfl
  | true =>
    exfalso
    have hmem : (Key.kint (Int.ofNat 0), Val.vstr (f 0)) ∈
        (List.range n).map (fun p => (Key.kint (Int.ofNat p), Val.vstr (f p))) :=
      List.mem_map.mpr ⟨0, List.mem_range.mpr hn, rfl⟩
    have hb := List.all_eq_true.mp hs _ hmem
    cases hb

theorem tupleKeys_canonEnc (f : Nat → String) (n : Nat) (hn : 0 < n) :
    tupleKeys ((List.range n).map
      (fun p => (Key.kint (Int.ofNat p), Val.vstr (f p)))) = false := by
  cases hs : tupleKeys ((List.range n).map
      (fun p => (Key.kint (Int.ofNat p), Val.vstr (f p)))) with
  | false => rfl
  | true =>
    exfalso
    have hmem : (Key.kint (Int.ofNat 0), Val.vstr (f 0)) ∈
        (List.range n).map (fun p => (Key.kint (Int.ofNat p), Val.vstr (f p))) :=
      List.mem_map.mpr ⟨0, List.mem_range.mpr hn, rfl⟩
    have hb := List.all_eq_true.mp hs _ hmem
    cases hb

theorem find?_map_keep (d : List (Key × Val)) (k q : Key) (v : Val)
    (hqk : q ≠ k) :
    (d.map (fun e => if e.1 = k then (k, v) else e)).find? (fun e => e.1 = q) =
      d.find? (fun e => e.1 = q) := by
  induction d with
  | nil => rfl
  | cons e d ih =>
    rw [List.map_cons]
    by_cases h1 : e.1 = k
    · rw [if_pos h1]
      rw [List.find?_cons_of_neg _
          (by simp only [decide_eq_true_eq]; exact fun hh => hqk hh.symm),
        List.find?_cons_of_neg _
          (by simp only [decide_eq_true_eq, h1]; exact fun hh => hqk hh.symm)]
      exact ih
    · rw [if_neg h1]
      by_cases h2 : e.1 = q
      · rw [List.find?_cons_of_pos _ (by simp [h2]),
          List.find?_cons_of_pos _ (by simp [h2])]
      · rw [List.find?_cons_of_neg _ (by simp [h2]),
          List.find?_cons_of_neg _ (by simp [h2])]
        exact ih

theorem find?_map_self (d : List (Key × Val)) (k : Key) (v : Val)
    (hany : d.any (fun e => e.1 = k) = true) :
    (d.map (fun e => if e.1 = k then (k, v) else e)).find? (fun e => e.1 = k) =
      some (k, v) := by
  induction d with
  | nil => cases hany
  | cons e d ih =>
    rw [List.map_cons]
    by_cases h1 : e.1 = k
    · rw [if_pos h1, List.find?_cons_of_pos _ (by simp)]
    · rw [if_neg h1, List.find?_cons_of_neg _ (by simp [h1])]
      apply ih
      rw [List.any_cons] at hany
      simpa [h1] using hany

theorem lookupKV_dictInsert (d : List (Key × Val)) (k : Key) (v : Val)
    (q : Key) :
    lookupKV (dictInsert d k v) q = if q = k then some v else lookupKV d q := by
  unfold dictInsert
  by_cases hany : d.any (fun e => e.1 = k) = true
  · rw [if_pos hany]
    by_cases hqk : q = k
    · subst hqk
      unfold lookupKV
      rw [find?_map_self d q v hany, if_pos rfl]
      rfl
    · rw [if_neg hqk]
      unfold lookupKV
      rw [find?_map_keep d k q v hqk]
  · rw [if_neg hany]
    unfold lookupKV
    rw [List.find?_append]
    by_cases hqk : q = k
    · subst hqk
      have hnone : d.find? (fun e => e.1 = q) = none := by
        rw [List.find?_eq_none]
        intro e he
        simp only [decide_eq_true_eq]
        intro hh
        exact hany (List.any_eq_true.mpr ⟨e, he, by simp [hh]⟩)
      rw [hnone, Option.none_or, if_pos rfl,
        List.find?_cons_of_pos _ (by simp)]
      rfl
    · rw [if_neg hqk]
      have hnone2 : List.find? (fun e => e.1 = q) [(k, v)] = none := by
        rw [List.find?_eq_none]
        intro e he
        rw [List.mem_singleton] at he
        subst he
        simp only [decide_eq_true_eq]
        exact fun hh => hqk hh.symm
      rw [hnone2, Option.or_none]

/-- The per-entry inner loop of `invertEntries` preserves the invariant
that the accumulated dict answers exactly the accumulated key set,
according to a fixed value function `g`, provided the inserted value
agrees with `g` on every inserted key. -/
theorem foldl_pair_lookup (g : Key → Val) (v : Val) :
    ∀ (ks : List Key) (acc : List (Key × Val) × List Key),
      (∀ q, lookupKV acc.1 q = if q ∈ acc.2 then some (g q) else none) →
      (∀ x ∈ ks, v = g x) →
      ∀ q, lookupKV
          (ks.foldl (fun a x => (dictInsert a.1 x v, listInsert a.2 x)) acc).1
          q =
        if q ∈ (ks.foldl (fun a x =>
            (dictInsert a.1 x v, listInsert a.2 x)) acc).2 then
          some (g q)
        else none := by
  intro ks
  induction ks with
  | nil => intro acc hacc _ q; exact hacc q
  | cons x ks ih =>
    intro acc hacc hv q
    rw [List.foldl_cons]
    apply ih (dictInsert acc.1 x v, listInsert acc.2 x) _
      (fun y hy => hv y (List.mem_cons_of_mem x hy))
    intro q2
    show lookupKV (dictInsert acc.1 x v) q2 =
      if q2 ∈ listInsert acc.2 x then some (g q2) else none
    rw [lookupKV_dictInsert]
    by_cases hq2 : q2 = x
    · subst hq2
      rw [if_pos rfl, if_pos ((mem_listInsert acc.2 q2 q2).mpr (Or.inr rfl)),
        hv q2 (List.mem_cons_self q2 ks)]
    · rw [if_neg hq2, hacc q2]
      by_cases hmem : q2 ∈ acc.2
      · rw [if_pos hmem,
          if_pos ((mem_listInsert acc.2 x q2).mpr (Or.inl hmem))]
      · rw [if_neg hmem, if_neg (fun hh =>
          (Or.elim ((mem_listInsert acc.2 x q2).mp hh) hmem hq2))]

/-- The dict built by `invertEntries` answers exactly the accumulated key
set according to `g`, when every write agrees with `g`. -/
theorem invertEntries_lookup (g : Key → Val)
    (ext : Key × Val → Except Err (List Key × Val)) :
    ∀ (entries : List (Key × Val)) (acc : List (Key × Val) × List Key)
      (r : List (Key × Val) × List Key),
      invertEntries ext entries acc = .ok r →
      (∀ e ∈ entries, ∀ kv, ext e = .ok kv → ∀ x ∈ kv.1, kv.2 = g x) →
      (∀ q, lookupKV acc.1 q = if q ∈ acc.2 then some (g q) else none) →
      ∀ q, lookupKV r.1 q = if q ∈ r.2 then some (g q) else none := by
  intro entries
  induction entries with
  | nil =>
    intro acc r h _ hacc
    rw [invertEntries_nil] at h
    cases h
    exact hacc
  | cons e rest ih =>
    intro acc r h hg hacc
    rw [invertEntries_cons] at h
    cases hkv : ext e with
    | error er => rw [hkv, seq_error] at h; cases h
    | ok kv =>
      rw [hkv, seq_ok] at h
      apply ih _ r h (fun e2 he2 => hg e2 (List.mem_cons_of_mem e he2))
      exact foldl_pair_lookup g kv.2 kv.1 acc hacc
        (fun x hx => hg e (List.mem_cons_self e rest) kv hkv x hx)

theorem labelEnc_positions (f : Nat → String) (n : Nat) :
    ∀ x, (∃ e ∈ (labelsOf f n).map (fun s =>
        (Key.kstr s, Val.vints ((posOf f n s).map Int.ofNat))), ∃ kv,
        extStr e = .ok kv ∧ x ∈ kv.1) ↔ x ∈ kintRangeL n := by
  intro x
  constructor
  · rintro ⟨e, he, kv, hkv, hx⟩
    obtain ⟨s, _, rfl⟩ := List.mem_map.mp he
    have hext : extStr (Key.kstr s, Val.vints ((posOf f n s).map Int.ofNat)) =
        .ok (((posOf f n s).map Int.ofNat).map Key.kint, Val.vstr s) := rfl
    have hkv2 : kv = (((posOf f n s).map Int.ofNat).map Key.kint,
        Val.vstr s) := Except.ok.inj (hkv.symm.trans hext)
    rw [hkv2] at hx
    rw [List.map_map] at hx
    obtain ⟨p, hp, rfl⟩ := List.mem_map.mp hx
    have hplt := ((mem_posOf f n s p).mp hp).1
    exact (mem_kintRangeL n _).mpr ⟨p, hplt, rfl⟩
  · intro hx
    obtain ⟨p, hp, rfl⟩ := (mem_kintRangeL n _).mp hx
    refine ⟨(Key.kstr (f p), Val.vints ((posOf f n (f p)).map Int.ofNat)),
      List.mem_map.mpr ⟨f p, label_mem_labelsOf f n p hp, rfl⟩,
      (((posOf f n (f p)).map Int.ofNat).map Key.kint, Val.vstr (f p)),
      rfl, ?_⟩
    rw [List.map_map]
    exact List.mem_map.mpr ⟨p, (mem_posOf f n (f p) p).mpr ⟨hp, rfl⟩, rfl⟩

theorem labelEnc_values (f : Nat → String) (n : Nat) :
    ∀ e ∈ (labelsOf f n).map (fun s =>
      (Key.kstr s, Val.vints ((posOf f n s).map Int.ofNat))),
      ∀ kv, extStr e = .ok kv → ∀ x ∈ kv.1, kv.2 = gfOf f x := by
  intro e he kv hkv x hx
  obtain ⟨s, _, rfl⟩ := List.mem_map.mp he
  have hext : extStr (Key.kstr s, Val.vints ((posOf f n s).map Int.ofNat)) =
      .ok (((posOf f n s).map Int.ofNat).map Key.kint, Val.vstr s) := rfl
  have hkv2 : kv = (((posOf f n s).map Int.ofNat).map Key.kint, Val.vstr s) :=
    Except.ok.inj (hkv.symm.trans hext)
  subst hkv2
  rw [List.map_map] at hx
  obtain ⟨p, hp, rfl⟩ := List.mem_map.mp hx
  have hs := ((mem_posOf f n s p).mp hp).2
  show Val.vstr s = gfOf f (Key.kint (Int.ofNat p))
  simp only [gfOf]
  rw [show (Int.ofNat p).toNat = p from rfl, hs]

theorem tupleEnc_positions (f : Nat → String) (n : Nat) :
    ∀ x, (∃ e ∈ (labelsOf f n).map (fun s =>
        (Key.ktup ((posOf f n s).map Int.ofNat), Val.vstr s)), ∃ kv,
        extTup e = .ok kv ∧ x ∈ kv.1) ↔ x ∈ kintRangeL n := by
  intro x
  constructor
  · rintro ⟨e, he, kv, hkv, hx⟩
    obtain ⟨s, _, rfl⟩ := List.mem_map.mp he
    have hext : extTup (Key.ktup ((posOf f n s).map Int.ofNat), Val.vstr s) =
        .ok (((posOf f n s).map Int.ofNat).map Key.kint, Val.vstr s) := rfl
    have hkv2 : kv = (((posOf f n s).map Int.ofNat).map Key.kint,
        Val.vstr s) := Except.ok.inj (hkv.symm.trans hext)
    rw [hkv2] at hx
    rw [List.map_map] at hx
    obtain ⟨p, hp, rfl⟩ := List.mem_map.mp hx
    have hplt := ((mem_posOf f n s p).mp hp).1
    exact (mem_kintRangeL n _).mpr ⟨p, hplt, rfl⟩
  · intro hx
    obtain ⟨p, hp, rfl⟩ := (mem_kintRangeL n _).mp hx
    refine ⟨(Key.ktup ((posOf f n (f p)).map Int.ofNat), Val.vstr (f p)),
      List.mem_map.mpr ⟨f p, label_mem_labelsOf f n p hp, rfl⟩,
      (((posOf f n (f p)).map Int.ofNat).map Key.kint, Val.vstr (f p)),
      rfl, ?_⟩
    rw [List.map_map]
    exact List.mem_map.mpr ⟨p, (mem_posOf f n (f p) p).mpr ⟨hp, rfl⟩, rfl⟩

theorem tupleEnc_values (f : Nat → String) (n : Nat) :
    ∀ e ∈ (labelsOf f n).map (fun s =>
      (Key.ktup ((posOf f n s).map Int.ofNat), Val.vstr s)),
      ∀ kv, extTup e = .ok kv → ∀ x ∈ kv.1, kv.2 = gfOf f x := by
  intro e he kv hkv x hx
  obtain ⟨s, _, rfl⟩ := List.mem_map.mp he
  have hext : extTup (Key.ktup ((posOf f n s).map Int.ofNat), Val.vstr s) =
      .ok (((posOf f n s).map Int.ofNat).map Key.kint, Val.vstr s) := rfl
  have hkv2 : kv = (((posOf f n s).map Int.ofNat).map Key.kint, Val.vstr s) :=
    Except.ok.inj (hkv.symm.trans hext)
  subst hkv2
  rw [List.map_map] at hx
  obtain ⟨p, hp, rfl⟩ := List.mem_map.mp hx
  have hs := ((mem_posOf f n s p).mp hp).2
  show Val.vstr s = gfOf f (Key.kint (Int.ofNat p))
  simp only [gfOf]
  rw [show (Int.ofNat p).toNat = p from rfl, hs]

/-- Turn the `r.2`-membership form of a canonicalized dict's lookup into
the extensional `canonFun`. -/
theorem lookup_bridge (f : Nat → String) (n : Nat)
    (D : List (Key × Val)) (S : List Key)
    (hlook : ∀ q, lookupKV D q = if q ∈ S then some (gfOf f q) else none)
    (hmem : ∀ q, q ∈ S ↔ q ∈ kintRangeL n) :
    ∀ q, lookupKV D q = canonFun f n q := by
  intro q
  rw [hlook q]
  by_cases hq : q ∈ kintRangeL n
  · rw [if_pos ((hmem q).mpr hq)]
    obtain ⟨p, hp, rfl⟩ := (mem_kintRangeL n q).mp hq
    simp only [gfOf, canonFun]
    rw [show Int.ofNat p = (p : Int) from rfl]
    rw [if_pos (by constructor <;> omega), Int.toNat_ofNat]
  · rw [if_neg (fun hh => hq ((hmem q).mp hh))]
    cases q with
    | kint qi =>
      simp only [canonFun]
      rw [if_neg (fun hc => hq ((mem_kintRangeL n _).mpr
        ⟨qi.toNat, by omega,
          by rw [show Int.ofNat qi.toNat = qi from Int.toNat_of_nonneg hc.1]⟩))]
    | kstr s => rfl
    | ktup t => rfl

/-- The label-keyed encoding normalizes successfully to a dict with
exactly the canonical extensional content. -/
theorem labelEnc_check (f : Nat → String) (n : Nat) :
    ∃ D, _check_dict (labelEnc f n) n = .ok (.gdict D) ∧
      ∀ q, lookupKV D q = canonFun f n q := by
  obtain ⟨r, hr, hlen⟩ := invertEntries_set_card extStr
    ((labelsOf f n).map (fun s =>
      (Key.kstr s, Val.vints ((posOf f n s).map Int.ofNat))))
    (kintRangeL n)
    (extStr_all_ok _ (allVints_labelEnc f n)) (labelEnc_positions f n)
  have hchar := invertEntries_ok_snd extStr _ ([], []) r hr
  refine ⟨r.1, ?_, ?_⟩
  · rw [show labelEnc f n = .gdict ((labelsOf f n).map (fun s =>
      (Key.kstr s, Val.vints ((posOf f n s).map Int.ofNat)))) from rfl]
    rw [check_dict_str_eq _ n (strKeys_labelEnc f n), hr, seq_ok,
      if_pos (by rw [hlen, dedup_kintRangeL_length])]
  · apply lookup_bridge f n r.1 r.2
    · exact invertEntries_lookup (gfOf f) extStr _ ([], []) r hr
        (labelEnc_values f n) (fun q => by simp [lookupKV])
    · intro q
      rw [hchar.2 q]
      simp only [List.not_mem_nil, false_or]
      exact labelEnc_positions f n q

/-- The tuple-keyed encoding normalizes successfully to a dict with
exactly the canonical extensional content. -/
theorem tupleEnc_check (f : Nat → String) (n : Nat) :
    ∃ D, _check_dict (tupleEnc f n) n = .ok (.gdict D) ∧
      ∀ q, lookupKV D q = canonFun f n q := by
  cases hent : (labelsOf f n).map (fun s =>
      (Key.ktup ((posOf f n s).map Int.ofNat), Val.vstr s)) with
  | nil =>
    have hn : n = 0 := by
      by_contra hne
      have h0 : f 0 ∈ labelsOf f n :=
        label_mem_labelsOf f n 0 (Nat.pos_of_ne_zero hne)
      have : (Key.ktup ((posOf f n (f 0)).map Int.ofNat), Val.vstr (f 0)) ∈
          (labelsOf f n).map (fun s =>
            (Key.ktup ((posOf f n s).map Int.ofNat), Val.vstr s)) :=
        List.mem_map.mpr ⟨f 0, h0, rfl⟩
      rw [hent] at this
      cases this
    subst hn
    refine ⟨[], ?_, ?_⟩
    · rw [show tupleEnc f 0 = .gdict ((labelsOf f 0).map (fun s =>
        (Key.ktup ((posOf f 0 s).map Int.ofNat), Val.vstr s))) from rfl, hent]
      rfl
    · intro q
      cases q with
      | kint qi =>
        simp only [canonFun]
        rw [if_neg (by omega)]
        rfl
      | kstr s => rfl
      | ktup t => rfl
  | cons e0 rest =>
    obtain ⟨r, hr, hlen⟩ := invertEntries_set_card extTup
      ((labelsOf f n).map (fun s =>
        (Key.ktup ((posOf f n s).map Int.ofNat), Val.vstr s)))
      (kintRangeL n)
      (extTup_all_ok _ (tupleKeys_tupleEnc f n)) (tupleEnc_positions f n)
    have hchar := invertEntries_ok_snd extTup _ ([], []) r hr
    have htk := tupleKeys_tupleEnc f n
    refine ⟨r.1, ?_, ?_⟩
    · rw [show tupleEnc f n = .gdict ((labelsOf f n).map (fun s =>
        (Key.ktup ((posOf f n s).map Int.ofNat), Val.vstr s))) from rfl]
      rw [hent] at hr htk ⊢
      rw [check_dict_tup_eq _ n (strKeys_false_of_tupleKeys_cons e0 rest htk)
        htk, hr, seq_ok, if_pos (by rw [hlen, dedup_kintRangeL_length])]
    · apply lookup_bridge f n r.1 r.2
      · exact invertEntries_lookup (gfOf f) extTup _ ([], []) r hr
          (tupleEnc_values f n) (fun q => by simp [lookupKV])
      · intro q
        rw [hchar.2 q]
        simp only [List.not_mem_nil, false_or]
        exact tupleEnc_positions f n q

/-- The canonical encoding normalizes (unchanged when nonempty) to a dict
with exactly the canonical extensional content. -/
theorem canonEnc_check (f : Nat → String) (n : Nat) :
    ∃ D, _check_dict (canonEnc f n) n = .ok (.gdict D) ∧
      ∀ q, lookupKV D q = canonFun f n q := by
  cases n with
  | zero =>
    refine ⟨[], by rfl, ?_⟩
    intro q
    cases q with
    | kint qi =>
      simp only [canonFun]
      rw [if_neg (by omega)]
      rfl
    | kstr s => rfl
    | ktup t => rfl
  | succ m =>
    refine ⟨(List.range (m + 1)).map
      (fun p => (Key.kint (Int.ofNat p), Val.vstr (f p))), ?_, ?_⟩
    · rw [show canonEnc f (m + 1) = .gdict ((List.range (m + 1)).map
        (fun p => (Key.kint (Int.ofNat p), Val.vstr (f p)))) from rfl]
      exact check_dict_unvalidated _ (m + 1)
        (strKeys_canonEnc f (m + 1) (Nat.succ_pos m))
        (tupleKeys_canonEnc f (m + 1) (Nat.succ_pos m))
    · exact lookupKV_canonEnc f (m + 1)

theorem seq_assoc {α β γ : Type} (x : Except Err α) (g : α → Except Err β)
    (h : β → Except Err γ) :
    (x >>= g) >>= h = x >>= fun a => g a >>= h := by
  cases x <;> rfl

/-- Rows depend on the normalized groups only through the composed lookup
`groups[dim_idx][dim_adr]`. -/
theorem buildRow_congr (arr : NDArray) (dn : DimNames) (cs : List String)
    (vn : String) (adr : List Nat) (g1 g2 : NGroups)
    (hg : ∀ i pos, (ngLookup g1 i >>= fun grp => groupLookup grp pos) =
      (ngLookup g2 i >>= fun grp => groupLookup grp pos)) :
    buildRow arr dn g1 cs vn adr = buildRow arr dn g2 cs vn adr := by
  rw [buildRow_eq, buildRow_eq]
  cases ndget arr adr with
  | error e => rfl
  | ok v =>
    rw [seq_ok, seq_ok]
    apply exceptFoldl_congr
    intro row e _
    show (ngLookup g1 e.1 >>= fun grp => groupLookup grp e.2 >>= fun lbl =>
        dnLookup dn e.1 >>= fun name => pure (setByName cs row name lbl)) =
      (ngLookup g2 e.1 >>= fun grp => groupLookup grp e.2 >>= fun lbl =>
        dnLookup dn e.1 >>= fun name => pure (setByName cs row name lbl))
    rw [← seq_assoc, ← seq_assoc, hg e.1 e.2]

/-- The whole populated table depends on the normalized groups only
through the composed lookup. -/
theorem populate_congr (arr : NDArray) (dn : Option DimNames) (vn : String)
    (ga gb : Option GroupsArg) (gNa gNb : NGroups)
    (hna : normalizeGroups arr.shape (letters.take arr.shape.length) ga =
      .ok gNa)
    (hnb : normalizeGroups arr.shape (letters.take arr.shape.length) gb =
      .ok gNb)
    (hg : ∀ i pos, (ngLookup gNa i >>= fun grp => groupLookup grp pos) =
      (ngLookup gNb i >>= fun grp => groupLookup grp pos)) :
    populate arr dn ga vn = populate arr dn gb vn := by
  rw [populate_eq, populate_eq, hna, hnb, seq_ok, seq_ok]
  cases hc : exceptMap
      (dnLookup (resolveDimNames (letters.take arr.shape.length) dn))
      (List.range arr.shape.length) with
  | error e => rfl
  | ok dimCols =>
    rw [seq_ok, seq_ok,
      exceptMap_congr (fun adr _ =>
        buildRow_congr arr _ (vn :: dimCols) vn adr gNa gNb hg)]

/-- Normalizing a per-dimension encoding of logical mappings succeeds and
produces, at every dimension, a dict with the canonical extensional
content of that dimension's mapping. -/
theorem normalizeEnc_ok (enc : (Nat → String) → Nat → GroupArg)
    (hchk : ∀ f n, ∃ D, _check_dict (enc f n) n = .ok (.gdict D) ∧
      ∀ q, lookupKV D q = canonFun f n q)
    (arr : NDArray) (fs : List (Nat → String))
    (hfs : fs.length = arr.shape.length) :
    ∃ gl, normalizeGroups arr.shape (letters.take arr.shape.length)
        (some (encodeAll enc fs arr.shape)) = .ok (.ngList gl) ∧
      gl.length = arr.shape.length ∧
      ∀ i, i < arr.shape.length → ∃ D,
        gl.get? i = some (.gdict D) ∧
        ∀ q, lookupKV D q =
          canonFun (fs.getD i (fun _ => "")) (arr.shape.getD i 0) q := by
  have hzl : (List.zipWith enc fs arr.shape).length = arr.shape.length := by
    rw [List.length_zipWith, hfs, Nat.min_self]
  have hstep : ∀ dim, dim < arr.shape.length → ∃ D,
      (pyIndexNat arr.shape (Int.ofNat dim) >>= fun len =>
        _check_dict ((List.zipWith enc fs arr.shape).getD dim (.gseq [])) len)
        = .ok (.gdict D) ∧
      ∀ q, lookupKV D q = canonFun (fs.getD dim (fun _ => ""))
        (arr.shape.getD dim 0) q := by
    intro dim hdim
    have hzdim : dim < (List.zipWith enc fs arr.shape).length := by
      rw [hzl]; exact hdim
    have hfdim : dim < fs.length := by rw [hfs]; exact hdim
    rw [pyIndexNat_ok arr.shape dim hdim, seq_ok]
    rw [List.getD_eq_getElem _ _ hzdim, List.getElem_zipWith]
    rw [show fs[dim] = fs.getD dim (fun _ => "") from
      (List.getD_eq_getElem fs _ hfdim).symm]
    rw [show arr.shape[dim] = arr.shape.getD dim 0 from
      (List.getD_eq_getElem arr.shape 0 hdim).symm]
    exact hchk _ _
  have hallok : ∀ dim ∈ List.range (List.zipWith enc fs arr.shape).length,
      ∃ y, (pyIndexNat arr.shape (Int.ofNat dim) >>= fun len =>
        _check_dict ((List.zipWith enc fs arr.shape).getD dim (.gseq [])) len)
        = .ok y := by
    intro dim hdm
    have hdim : dim < arr.shape.length := by
      rw [← hzl]; exact List.mem_range.mp hdm
    obtain ⟨D, hD, _⟩ := hstep dim hdim
    exact ⟨.gdict D, hD⟩
  obtain ⟨gl, hmap⟩ := exceptMap_ok_of_all hallok
  have hgll : gl.length = arr.shape.length := by
    rw [exceptMap_ok_length hmap, List.length_range, hzl]
  refine ⟨gl, ?_, hgll, ?_⟩
  · rw [show encodeAll enc fs arr.shape =
      GroupsArg.gsList (List.zipWith enc fs arr.shape) from rfl]
    rw [normalizeGroups_gsList_eq, hmap, seq_ok]
  · intro i hi
    obtain ⟨D, hD, hlook⟩ := hstep i hi
    have higl : i < gl.length := by rw [hgll]; exact hi
    have hfi := exceptMap_ok_get hmap i i (gl.get ⟨i, higl⟩)
      (by rw [List.get?_eq_getElem?,
        List.getElem?_range (by rw [hzl]; exact hi)])
      (by rw [List.get?_eq_getElem?, List.getElem?_eq_getElem higl]; rfl)
    have hglD : gl.get ⟨i, higl⟩ = .gdict D :=
      Except.ok.inj (hfi.symm.trans hD)
    refine ⟨D, ?_, hlook⟩
    rw [List.get?_eq_getElem?, List.getElem?_eq_getElem higl,
      show gl[i] = gl.get ⟨i, higl⟩ from rfl, hglD]

/-- Two list-shaped normalized groups whose per-dimension dicts have the
same canonical extensional content answer every composed lookup
identically. -/
theorem ngList_lookup_congr (gl1 gl2 : List GroupArg) (arr : NDArray)
    (fs : List (Nat → String))
    (hlen1 : gl1.length = arr.shape.length)
    (hlen2 : gl2.length = arr.shape.length)
    (h1 : ∀ i, i < arr.shape.length → ∃ D,
      gl1.get? i = some (.gdict D) ∧
      ∀ q, lookupKV D q =
        canonFun (fs.getD i (fun _ => "")) (arr.shape.getD i 0) q)
    (h2 : ∀ i, i < arr.shape.length → ∃ D,
      gl2.get? i = some (.gdict D) ∧
      ∀ q, lookupKV D q =
        canonFun (fs.getD i (fun _ => "")) (arr.shape.getD i 0) q) :
    ∀ i pos, (ngLookup (.ngList gl1) i >>= fun grp => groupLookup grp pos) =
      (ngLookup (.ngList gl2) i >>= fun grp => groupLookup grp pos) := by
  intro i pos
  by_cases hi : i < arr.shape.length
  · obtain ⟨D1, hg1, hl1⟩ := h1 i hi
    obtain ⟨D2, hg2, hl2⟩ := h2 i hi
    have hg1b : gl1[i]? = some (GroupArg.gdict D1) := by
      rw [← List.get?_eq_getElem?]; exact hg1
    have hg2b : gl2[i]? = some (GroupArg.gdict D2) := by
      rw [← List.get?_eq_getElem?]; exact hg2
    rw [show ngLookup (.ngList gl1) i = .ok (.gdict D1) from by
      simp [ngLookup, hg1b]]
    rw [show ngLookup (.ngList gl2) i = .ok (.gdict D2) from by
      simp [ngLookup, hg2b]]
    rw [seq_ok, seq_ok]
    simp only [groupLookup]
    rw [hl1, hl2]
  · have hn1 : gl1.get? i = none := by
      rw [List.get?_eq_getElem?]
      exact List.getElem?_eq_none (by rw [hlen1]; omega)
    have hn2 : gl2.get? i = none := by
      rw [List.get?_eq_getElem?]
      exact List.getElem?_eq_none (by rw [hlen2]; omega)
    have hn1b : gl1[i]? = none := by
      rw [← List.get?_eq_getElem?]; exact hn1
    have hn2b : gl2[i]? = none := by
      rw [← List.get?_eq_getElem?]; exact hn2
    rw [show ngLookup (.ngList gl1) i = .error .indexError from by
      simp [ngLookup, hn1b]]
    rw [show ngLookup (.ngList gl2) i = .error .indexError from by
      simp [ngLookup, hn2b]]

/-- C5: the three accepted encodings of one logical position-to-label
mapping (canonical integer-keyed, label-keyed, tuple-keyed) normalize to
extensionally identical canonical mappings (`canonFun`), and melting any
array with per-dimension encodings of the same logical mappings yields
identical output tables whichever of the three encodings is used. -/
theorem spec_c5_thm (n : Nat) (f : Nat → String) :
    (∃ D1 D2 D3,
      _check_dict (canonEnc f n) n = .ok (.gdict D1) ∧
      _check_dict (labelEnc f n) n = .ok (.gdict D2) ∧
      _check_dict (tupleEnc f n) n = .ok (.gdict D3) ∧
      (∀ q, lookupKV D1 q = canonFun f n q) ∧
      (∀ q, lookupKV D2 q = canonFun f n q) ∧
      (∀ q, lookupKV D3 q = canonFun f n q)) ∧
    (∀ (arr : NDArray) (dn : Option DimNames) (vn : String) (hI hC : Bool)
      (fs : List (Nat → String)), fs.length = arr.shape.length →
      array2df arr dn (some (encodeAll canonEnc fs arr.shape)) vn hI hC =
        array2df arr dn (some (encodeAll labelEnc fs arr.shape)) vn hI hC ∧
      array2df arr dn (some (encodeAll canonEnc fs arr.shape)) vn hI hC =
        array2df arr dn (some (encodeAll tupleEnc fs arr.shape)) vn hI hC) := by
  constructor
  · obtain ⟨D1, h1, l1⟩ := canonEnc_check f n
    obtain ⟨D2, h2, l2⟩ := labelEnc_check f n
    obtain ⟨D3, h3, l3⟩ := tupleEnc_check f n
    exact ⟨D1, D2, D3, h1, h2, h3, l1, l2, l3⟩
  · intro arr dn vn hI hC fs hfs
    obtain ⟨glc, hnc, hlenc, hc⟩ := normalizeEnc_ok canonEnc canonEnc_check
      arr fs hfs
    obtain ⟨gll, hnl, hlenl, hl⟩ := normalizeEnc_ok labelEnc labelEnc_check
      arr fs hfs
    obtain ⟨glt, hnt, hlent, ht⟩ := normalizeEnc_ok tupleEnc tupleEnc_check
      arr fs hfs
    constructor
    · rw [array2df_eq, array2df_eq,
        populate_congr arr dn vn _ _ (.ngList glc) (.ngList gll) hnc hnl
          (ngList_lookup_congr glc gll arr fs hlenc hlenl hc hl)]
    · rw [array2df_eq, array2df_eq,
        populate_congr arr dn vn _ _ (.ngList glc) (.ngList glt) hnc hnt
          (ngList_lookup_congr glc glt arr fs hlenc hlent hc ht)]

/-- C5 witness: the length-3 array `[1, 2, 3]` melted with the logical
mapping `0 ↦ "abc", 1 ↦ "d", 2 ↦ "abc"` in each of the three encodings
yields the same table. -/
theorem spec_c5_witness :
    array2df exArr3 none (some (encodeAll canonEnc
        [fun p => if p = 1 then "d" else "abc"] exArr3.shape))
      "value" true true =
    array2df exArr3 none (some (encodeAll labelEnc
        [fun p => if p = 1 then "d" else "abc"] exArr3.shape))
      "value" true true ∧
    array2df exArr3 none (some (encodeAll canonEnc
        [fun p => if p = 1 then "d" else "abc"] exArr3.shape))
      "value" true true =
    array2df exArr3 none (some (encodeAll tupleEnc
        [fun p => if p = 1 then "d" else "abc"] exArr3.shape))
      "value" true true :=
  (spec_c5_thm 3 (fun p => if p = 1 then "d" else "abc")).2 exArr3 none
    "value" true true [fun p => if p = 1 then "d" else "abc"] rfl

end Mypy
